import Mathlib

/-!  Verification development for the document AI extraction pipeline of
`src/document_ai_app.py`.

The program is a linear pipeline: extract text from an uploaded document
(PDF / Word / plain text) or use pasted text, build a prompt, call a remote
completion endpoint, parse the returned text as JSON and display it with
confidence statistics.  This file embeds the logical core of that pipeline:

* Python strings are modelled as `List Nat` of Unicode code points
  (Python `str` admits lone surrogates, so `List Char` would be too narrow).
* JSON values are the mutual inductives `Json` / `JList` / `JObj`; numbers
  carry their source numeral verbatim (`Json.num lit`), with the exact
  decimal value recovered by `numVal`.  IEEE floating point rounding is not
  modelled: arithmetic on confidence values is exact rational arithmetic,
  which agrees with the program on all the statements proved here.  The
  non-standard literals `NaN`, `Infinity` and `-Infinity`, which Python's
  `json.loads` accepts, are the constructors `nan`, `inf`, `ninf`.
* `json.loads` is the executable recursive-descent parser `loads`,
  `json.dumps(·, indent=2)` is `dumps`, and Python `==` on parsed values is
  `pyEq` (notably `pyEq .nan .nan = false`, as for Python's `nan`).
* The Streamlit result section (lines 159-212 of the source) is
  `analyzeJson` / `interpret`; the button handler (lines 96-155) is
  `runPipeline`, with `extract_text` and `buildPrompt` translated from the
  functions of the same purpose in the source.
-/

set_option maxRecDepth 8000

namespace DocAI

/-- Code points of a Lean string literal; used to transcribe the Python
string constants of the program. -/
def s2n (s : String) : List Nat := s.toList.map Char.toNat

/-- Model of Python `str.lower` on the ASCII range: letters `A`-`Z` map to
`a`-`z`, every other code point is unchanged.  (The exotic non-ASCII
lowercase mappings of full Unicode are not modelled; every statement below
only tests for the ASCII substring `"confidence"`.) -/
def asciiLower (l : List Nat) : List Nat :=
  l.map (fun c => if 65 ≤ c ∧ c ≤ 90 then c + 32 else c)

/-- The pattern occurs verbatim at the head of the list. -/
def leadsWith : List Nat → List Nat → Bool
  | [], _ => true
  | p :: ps, l =>
    match l with
    | [] => false
    | c :: cs => p == c && leadsWith ps cs

/-- Python substring membership `pat in l`. -/
def hasSub : List Nat → List Nat → Bool
  | pat, [] => leadsWith pat []
  | pat, c :: cs => leadsWith pat (c :: cs) || hasSub pat cs

/-- Test of the source's `"confidence" in str(k).lower()` on a key. -/
def isConfKey (k : List Nat) : Bool := hasSub (s2n "confidence") (asciiLower k)

mutual

/-- A parsed JSON value, as produced by Python's `json.loads`.  `num` keeps
the numeral of the source text verbatim; `nan`, `inf` and `ninf` are the
non-standard constants accepted by Python's parser. -/
inductive Json where
  | null : Json
  | bool (b : Bool) : Json
  | num (lit : List Nat) : Json
  | str (s : List Nat) : Json
  | nan : Json
  | inf : Json
  | ninf : Json
  | arr (items : JList) : Json
  | obj (members : JObj) : Json

/-- A JSON array body. -/
inductive JList where
  | nil : JList
  | cons (head : Json) (tail : JList) : JList

/-- A JSON object body: key/value pairs in Python dict insertion order. -/
inductive JObj where
  | nil : JObj
  | cons (key : List Nat) (val : Json) (tail : JObj) : JObj

end

namespace JObj

/-- Number of direct keys, Python's `len(json_data)` on a dict. -/
def length : JObj → Nat
  | .nil => 0
  | .cons _ _ t => 1 + length t

/-- First value stored under a key, Python's `d[k]` for our ordered pairs. -/
def lookup (k : List Nat) : JObj → Option Json
  | .nil => none
  | .cons k2 v t => if k = k2 then some v else lookup k t

/-- Python dict assignment `d[k] = v`: replace the value at the first
occurrence of the key, keeping its position, else append. -/
def insert (k : List Nat) (v : Json) : JObj → JObj
  | .nil => .cons k v .nil
  | .cons k2 v2 t => if k = k2 then .cons k2 v t else .cons k2 v2 (insert k v t)

/-- Some direct key satisfies the predicate (`any(... for k in d.keys())`). -/
def anyKey (p : List Nat → Bool) : JObj → Bool
  | .nil => false
  | .cons k _ t => p k || anyKey p t

/-- The key is not present. -/
def fresh (k : List Nat) : JObj → Bool
  | .nil => true
  | .cons k2 _ t => decide (k ≠ k2) && fresh k t

/-- Concatenation of member lists. -/
def append : JObj → JObj → JObj
  | .nil, o => o
  | .cons k v t, o => .cons k v (append t o)

end JObj

/-- The source's top-level gate (line 178):
`any("confidence" in str(k).lower() for k in json_data.keys())`. -/
def confGate (o : JObj) : Bool := o.anyKey isConfKey

mutual

/-- Translation of `find_confidences` (source lines 180-189): walking a
dict, the whole value of a confidence-named key is collected without
descending into it, other values are walked recursively; list items are
walked; scalars contribute nothing. -/
def find_confidences : Json → List Json
  | .obj o => findConfObj o
  | .arr l => findConfList l
  | _ => []

/-- Dict part of the `find_confidences` walk. -/
def findConfObj : JObj → List Json
  | .nil => []
  | .cons k v t =>
      (if isConfKey k then [v] else find_confidences v) ++ findConfObj t

/-- List part of the `find_confidences` walk. -/
def findConfList : JList → List Json
  | .nil => []
  | .cons x t => find_confidences x ++ findConfList t

end

/-- Exact decimal digit run value. -/
def digitsToNat (l : List Nat) : Nat := l.foldl (fun a c => a * 10 + (c - 48)) 0

/-- Leading maximal run of ASCII digits, and the remainder. -/
def spanDigits : List Nat → (List Nat × List Nat)
  | [] => ([], [])
  | c :: cs =>
      if 48 ≤ c ∧ c ≤ 57 then
        let p := spanDigits cs
        (c :: p.1, p.2)
      else ([], c :: cs)

/-- An exact, not necessarily reduced fraction.  The arithmetic of the
confidence statistics is carried out on these (the core `Rat` operations
normalize through `Nat.gcd`, which the kernel cannot evaluate, so closed
instances could not be checked by `decide` over `ℚ` directly). -/
structure Frac where
  num : Int
  den : Nat
deriving DecidableEq

/-- Rational value of a fraction. -/
def Frac.val (f : Frac) : ℚ := (f.num : ℚ) / (f.den : ℚ)

/-- Exact addition of fractions, no normalization. -/
def Frac.add (f g : Frac) : Frac :=
  ⟨f.num * (g.den : Int) + g.num * (f.den : Int), f.den * g.den⟩

/-- Python's `sum` (over already-validated numeric values): fold of exact
addition starting from the integer `0`. -/
def sumFracs (l : List Frac) : Frac := l.foldl Frac.add ⟨0, 1⟩

/-- Decomposition of a JSON numeral into sign, integer-part digits,
fraction digits and exponent. -/
def numParts (lit : List Nat) : Bool × List Nat × List Nat × ℤ :=
  let (neg, l1) := match lit with
    | 45 :: r => (true, r)
    | l => (false, l)
  let (ip, r1) := spanDigits l1
  let (fr, r2) := match r1 with
    | 46 :: r => spanDigits r
    | l => ([], l)
  let ex : ℤ := match r2 with
    | 101 :: 45 :: r => -(digitsToNat (spanDigits r).1 : ℤ)
    | 101 :: 43 :: r => (digitsToNat (spanDigits r).1 : ℤ)
    | 101 :: r => (digitsToNat (spanDigits r).1 : ℤ)
    | 69 :: 45 :: r => -(digitsToNat (spanDigits r).1 : ℤ)
    | 69 :: 43 :: r => (digitsToNat (spanDigits r).1 : ℤ)
    | 69 :: r => (digitsToNat (spanDigits r).1 : ℤ)
    | _ => 0
  (neg, ip, fr, ex)

/-- Exact value denoted by a JSON numeral (sign, integer part, optional
fraction, optional exponent).  Python converts such numerals to `int` or
IEEE `float`; the exact decimal value is used here in place of the rounded
double, see the file comment. -/
def numVal (lit : List Nat) : Frac :=
  match numParts lit with
  | (neg, ip, fr, ex) =>
    let base : Int := (digitsToNat ip * 10 ^ fr.length + digitsToNat fr : Nat)
    let n1 : Int := if neg then -base else base
    match ex with
    | .ofNat e => ⟨n1 * (10 ^ e : Nat), 10 ^ fr.length⟩
    | .negSucc e => ⟨n1, 10 ^ fr.length * 10 ^ (e + 1)⟩

/-- Numeric view of a collected confidence value, mirroring what Python's
`sum` accepts: numbers and booleans are summable (`True` counts as `1`),
the non-finite constants are summable but have no finite value, and any
other value makes `sum` raise `TypeError`. -/
inductive NumView where
  | fin (q : Frac) : NumView
  | nonfin : NumView
deriving DecidableEq

/-- Python-summability of one collected value. -/
def toNum : Json → Option NumView
  | .num lit => some (.fin (numVal lit))
  | .bool b => some (.fin ⟨if b then 1 else 0, 1⟩)
  | .nan => some .nonfin
  | .inf => some .nonfin
  | .ninf => some .nonfin
  | _ => none

/-- Finite exact value of a collected confidence value, when it has one. -/
def toFin (j : Json) : Option Frac :=
  match toNum j with
  | some (.fin q) => some q
  | _ => none

/-- Values of the collected confidence list when all of them are finite
numbers (Python's `sum(...)` succeeds and yields a finite float);
`none` when `sum` raises `TypeError` on a non-numeric element or the sum is
non-finite (`st.progress` then rejects it). -/
def collectFins : List Json → Option (List Frac)
  | [] => some []
  | j :: js =>
    match toFin j, collectFins js with
    | some q, some qs => some (q :: qs)
    | _, _ => none

/-- Terminal state of one run of the response-processing section
(source lines 159-212): a structured result with its statistics, the
raw-text fallback of the `json.JSONDecodeError` handler, or the generic
`Processing failed` error state of the outer `except`. -/
inductive Outcome where
  | structured (v : Json) (fieldCount : Option Nat) (avgConf : Option Frac) : Outcome
  | fallback (raw : List Nat) : Outcome
  | failed : Outcome

/-- Display/statistics step applied to a successfully parsed value
(source lines 163-204 plus the outer `except` of line 211).  For a non-dict
value, line 178 evaluates `json_data.keys()` and the `AttributeError`
lands in the outer `except`.  For a dict, the confidence block runs only
when some top-level key contains `"confidence"`; `sum` raises on a
non-summable collected value, and `st.progress(avg_conf)` raises unless
the average is a float in `[0, 1]` (non-finite averages also raise there). -/
def analyzeJson : Json → Outcome
  | .obj o =>
      if confGate o then
        if (find_confidences (.obj o)).isEmpty then
          .structured (.obj o) (some o.length) none
        else
          match collectFins (find_confidences (.obj o)) with
          | none => .failed
          | some qs =>
            if 0 ≤ (sumFracs qs).num ∧
                (sumFracs qs).num ≤ (((sumFracs qs).den * qs.length : Nat) : Int) then
              .structured (.obj o) (some o.length)
                (some ⟨(sumFracs qs).num, (sumFracs qs).den * qs.length⟩)
            else .failed
      else .structured (.obj o) (some o.length) none
  | _ => .failed

section Sanity

example : isConfKey (s2n "Name_Confidence") = true := by decide
example : isConfKey (s2n "name") = false := by decide
example : numVal (s2n "0.9") = ⟨9, 10⟩ := by decide
example : numVal (s2n "-12e2") = ⟨-1200, 1⟩ := by decide
example : (numVal (s2n "1.5e-2")).val = 3 / 200 := by
  have : numVal (s2n "1.5e-2") = ⟨15, 1000⟩ := by decide
  rw [this, Frac.val]; norm_num

end Sanity

/-! ## The prompt builder (source lines 116-145)

The two triple-quoted f-strings of the source, transcribed verbatim; every
line of those literals carries the source's sixteen-space indentation. -/

/-- Text of the schema-guided f-string before the `schema` interpolation. -/
def sgPre : List Nat :=
  s2n "\n                Convert this document into JSON following exactly this schema:\n                "

/-- Text of the schema-guided f-string between the `schema` and
`input_text` interpolations. -/
def sgMid : List Nat :=
  s2n "\n                \n                Document content:\n                "

/-- Text of the schema-guided f-string after the `input_text`
interpolation, carrying the four rules. -/
def sgPost : List Nat :=
  s2n "\n                \n                Rules:\n                1. Include all available data\n                2. Mark missing fields as null\n                3. Add \"_confidence\" scores (0-1) for each field\n                4. Return ONLY valid JSON\n                "

/-- Text of the automatic-mode f-string before the `input_text`
interpolation. -/
def autoPre : List Nat :=
  s2n "\n                Analyze this document and extract structured data as comprehensive JSON.\n                Include:\n                - Key entities (people, organizations, locations)\n                - Important dates and numbers\n                - Relationships between entities\n                - Key-value pairs\n                - Document structure\n                \n                Add confidence scores for each extracted field.\n                Return ONLY the JSON output.\n                \n                Document:\n                "

/-- Text of the automatic-mode f-string after the `input_text`
interpolation. -/
def autoPost : List Nat := s2n "\n                "

/-- The two extraction modes of the radio widget (source lines 59-64). -/
inductive Mode where
  | automatic
  | schemaGuided
deriving DecidableEq

/-- The prompt construction of source lines 116-145: f-string interpolation
of the schema (schema-guided branch only) and of the input text. -/
def buildPrompt : Mode → List Nat → List Nat → List Nat
  | .schemaGuided, schema, text => sgPre ++ schema ++ sgMid ++ text ++ sgPost
  | .automatic, _, text => autoPre ++ text ++ autoPost

/-! ## The text extractor (source lines 18-41) -/

/-- One step of strict UTF-8 decoding (the behavior of Python's
`str(bytes, "utf-8")`): rejects stray continuation bytes, overlong forms,
surrogates and code points beyond `U+10FFFF`.  The state is `none` when a
lead byte is expected, `some (need, acc, lower)` when `need` further
continuation bytes follow the current one, `acc` is the value accumulated
so far and `lower` the smallest scalar the sequence length may encode
(which enforces the overlong-form rejection). -/
def utf8D (st : Option (Nat × Nat × Nat)) : List Nat → Option (List Nat)
  | [] =>
    match st with
    | none => some []
    | some _ => none
  | b :: bs =>
    match st with
    | none =>
        if b < 0x80 then (utf8D none bs).map (b :: ·)
        else if b < 0xC2 then none
        else if b < 0xE0 then utf8D (some (0, b - 0xC0, 0x80)) bs
        else if b < 0xF0 then utf8D (some (1, b - 0xE0, 0x800)) bs
        else if b < 0xF5 then utf8D (some (2, b - 0xF0, 0x10000)) bs
        else none
    | some (need, acc, lower) =>
        if 0x80 ≤ b ∧ b < 0xC0 then
          match need with
          | 0 =>
              if lower ≤ acc * 64 + (b - 0x80) ∧ acc * 64 + (b - 0x80) ≤ 0x10FFFF ∧
                  ¬(0xD800 ≤ acc * 64 + (b - 0x80) ∧ acc * 64 + (b - 0x80) ≤ 0xDFFF) then
                (utf8D none bs).map ((acc * 64 + (b - 0x80)) :: ·)
              else none
          | m + 1 => utf8D (some (m, acc * 64 + (b - 0x80), lower)) bs
        else none

/-- A byte sequence decoded as strict UTF-8. -/
def utf8Decode (l : List Nat) : Option (List Nat) := utf8D none l

/-- UTF-8 bytes of one Unicode scalar value. -/
def utf8EncodeChar (c : Nat) : List Nat :=
  if c < 0x80 then [c]
  else if c < 0x800 then [0xC0 + c / 64, 0x80 + c % 64]
  else if c < 0x10000 then [0xE0 + c / 4096, 0x80 + c / 64 % 64, 0x80 + c % 64]
  else [0xF0 + c / 262144, 0x80 + c / 4096 % 64, 0x80 + c / 64 % 64, 0x80 + c % 64]

/-- UTF-8 encoding of a sequence of scalar values. -/
def utf8Encode : List Nat → List Nat
  | [] => []
  | c :: cs => utf8EncodeChar c ++ utf8Encode cs

/-- An uploaded file as `extract_text` sees it: the declared content type
together with what the respective external parser delivers for its bytes.
Modelled from the spec: PyPDF2 and python-docx are external collaborators,
so a parsed PDF/Word document is its list of page texts / paragraph texts
(in document order), and a parse exception of those libraries is `none`. -/
inductive FileData where
  | pdf (pages : Option (List (List Nat)))
  | docx (paras : Option (List (List Nat)))
  | plainText (bytes : List Nat)
  | other (mime : List Nat)

/-- How one call of `extract_text` ends: extracted text returned, `None`
returned after `st.error` (the caught PDF/Word failures and the
unsupported-type branch), or an uncaught exception (the unguarded
`str(file.getvalue(), "utf-8")` on undecodable bytes). -/
inductive ExtractOut where
  | text (t : List Nat)
  | errored
  | raised
deriving DecidableEq

/-- Translation of `extract_text` (source lines 18-41): PDF pages and Word
paragraphs are joined by `"\n".join(...)`, plain text is decoded as UTF-8,
any other content type reports an error. -/
def extract_text : FileData → ExtractOut
  | .pdf none => .errored
  | .pdf (some pages) => .text (List.intercalate [10] pages)
  | .docx none => .errored
  | .docx (some paras) => .text (List.intercalate [10] paras)
  | .plainText bs =>
      match utf8Decode bs with
      | some t => .text t
      | none => .raised
  | .other _ => .errored

/-! ## The button handler (source lines 96-155) -/

/-- Where one click of `Process Document` ends, up to the external
completion call: the `st.stop` of the missing-key check, the `st.stop`
after a failed extraction (whose error `extract_text` already displayed),
the silent `st.stop` on empty extracted text (no message is shown), the
missing-input error, an uncaught extraction exception, or the call into
`openai.ChatCompletion.create` with the built prompt. -/
inductive PipeOutcome where
  | missingCredential
  | extractionErrorHalt
  | silentHalt
  | missingInput
  | uncaught
  | completionCalled (prompt : List Nat)

/-- One pipeline run together with which stages were reached. -/
structure RunResult where
  outcome : PipeOutcome
  extractionRan : Bool
  completionRan : Bool

/-- Translation of the button handler (source lines 96-155): the API-key
check comes first; an uploaded document is extracted and empty text halts;
pasted text is used only with no upload; then the prompt is built and the
completion client is invoked.  (In the source, `schema` is the text-area
content in schema-guided mode and `None` otherwise; the automatic prompt
never mentions it, so the widget content is passed for both modes.) -/
def runPipeline (apiKey : List Nat) (uploaded : Option FileData)
    (textInput : List Nat) (mode : Mode) (schemaText : List Nat) : RunResult :=
  if apiKey = [] then ⟨.missingCredential, false, false⟩
  else
    match uploaded with
    | some f =>
      match extract_text f with
      | .errored => ⟨.extractionErrorHalt, true, false⟩
      | .raised => ⟨.uncaught, true, false⟩
      | .text t =>
        if t = [] then ⟨.silentHalt, true, false⟩
        else ⟨.completionCalled (buildPrompt mode schemaText t), true, true⟩
    | none =>
      if textInput = [] then ⟨.missingInput, false, false⟩
      else ⟨.completionCalled (buildPrompt mode schemaText textInput), false, true⟩

section Sanity2

example : extract_text (.plainText []) = .text [] := by rfl
example :
    extract_text (.pdf (some [s2n "a", s2n "b"])) = .text (s2n "a\nb") := by rfl
example : utf8Decode (utf8Encode (s2n "héllo")) = some (s2n "héllo") := by decide

end Sanity2

/-! ## The JSON parser (Python's `json.loads`)

An executable recursive-descent parser with the acceptance behavior of
Python's strict `json.loads`: arbitrary top-level values, the whitespace
set ` \t\n\r`, the string escapes (including `\uXXXX` and surrogate-pair
combination), the number grammar `-?(0|[1-9]\d*)(\.\d+)?([eE][-+]?\d+)?`,
and the non-standard constants `NaN`, `Infinity`, `-Infinity` that
Python's parser accepts by default.  Recursion is structural everywhere
(one consumed character per step for strings, an explicit fuel for the
value/array/object recursion) so that closed runs reduce inside the
kernel. -/

/-- Skip Python's JSON whitespace (space, tab, newline, carriage return). -/
def skipWs : List Nat → List Nat
  | [] => []
  | c :: cs => if c = 32 ∨ c = 9 ∨ c = 10 ∨ c = 13 then skipWs cs else c :: cs

/-- Value of one hexadecimal digit, either case. -/
def hexDigVal (c : Nat) : Option Nat :=
  if 48 ≤ c ∧ c ≤ 57 then some (c - 48)
  else if 97 ≤ c ∧ c ≤ 102 then some (c - 87)
  else if 65 ≤ c ∧ c ≤ 70 then some (c - 55)
  else none

/-- Python's table of short string escapes (`\" \\ \/ \b \f \n \r \t`). -/
def escCharOf (e : Nat) : Option Nat :=
  if e = 34 then some 34
  else if e = 92 then some 92
  else if e = 47 then some 47
  else if e = 98 then some 8
  else if e = 102 then some 12
  else if e = 110 then some 10
  else if e = 114 then some 13
  else if e = 116 then some 9
  else none

/-- State of the string scanner: scanning plain characters, after a
backslash, inside the four hex digits of a `\u` escape (`k` digits still
missing after the current one, `acc` accumulated), just after a
high-surrogate `\u` escape (`u` pending, may pair with a following low
surrogate as Python's `py_scanstring` does), and the two states repeating
the above while such a `u` is pending. -/
inductive SState where
  | norm
  | esc
  | hex (k : Nat) (acc : Nat)
  | hi (u : Nat)
  | hiEsc (u : Nat)
  | hiHex (u : Nat) (k : Nat) (acc : Nat)

/-- The string scanner of Python's `json` (strict mode), one character per
step; returns the decoded content and the input after the closing quote. -/
def strRun (st : SState) : List Nat → Option (List Nat × List Nat)
  | [] => none
  | c :: cs =>
    match st with
    | .norm =>
        if c = 34 then some ([], cs)
        else if c = 92 then strRun .esc cs
        else if c < 32 then none
        else (strRun .norm cs).map fun p => (c :: p.1, p.2)
    | .esc =>
        if c = 117 then strRun (.hex 3 0) cs
        else
          match escCharOf c with
          | some ec => (strRun .norm cs).map fun p => (ec :: p.1, p.2)
          | none => none
    | .hex k acc =>
        match hexDigVal c with
        | none => none
        | some d =>
          match k with
          | m + 1 => strRun (.hex m (acc * 16 + d)) cs
          | 0 =>
            if 55296 ≤ acc * 16 + d ∧ acc * 16 + d ≤ 56319 then
              strRun (.hi (acc * 16 + d)) cs
            else (strRun .norm cs).map fun p => ((acc * 16 + d) :: p.1, p.2)
    | .hi u =>
        if c = 92 then strRun (.hiEsc u) cs
        else if c = 34 then some ([u], cs)
        else if c < 32 then none
        else (strRun .norm cs).map fun p => (u :: c :: p.1, p.2)
    | .hiEsc u =>
        if c = 117 then strRun (.hiHex u 3 0) cs
        else
          match escCharOf c with
          | some ec => (strRun .norm cs).map fun p => (u :: ec :: p.1, p.2)
          | none => none
    | .hiHex u k acc =>
        match hexDigVal c with
        | none => none
        | some d =>
          match k with
          | m + 1 => strRun (.hiHex u m (acc * 16 + d)) cs
          | 0 =>
            if 56320 ≤ acc * 16 + d ∧ acc * 16 + d ≤ 57343 then
              (strRun .norm cs).map fun p =>
                ((65536 + (u - 55296) * 1024 + (acc * 16 + d - 56320)) :: p.1, p.2)
            else if 55296 ≤ acc * 16 + d ∧ acc * 16 + d ≤ 56319 then
              (strRun (.hi (acc * 16 + d)) cs).map fun p => (u :: p.1, p.2)
            else (strRun .norm cs).map fun p => (u :: (acc * 16 + d) :: p.1, p.2)

/-- The integer part of the number grammar: `0` or a nonzero digit
followed by a maximal digit run. -/
def parseIntDigits : List Nat → Option (List Nat × List Nat)
  | [] => none
  | c :: cs =>
    if c = 48 then some ([48], cs)
    else if 49 ≤ c ∧ c ≤ 57 then
      some (c :: (spanDigits cs).1, (spanDigits cs).2)
    else none

/-- The optional fraction `(\.\d+)?` — consumed only when a dot with at
least one digit follows, exactly like the regular expression. -/
def parseFracOpt (l : List Nat) : List Nat × List Nat :=
  match l with
  | [] => ([], [])
  | c :: r =>
    if c = 46 then
      match spanDigits r with
      | ([], _) => ([], c :: r)
      | (d, r2) => (46 :: d, r2)
    else ([], c :: r)

/-- The optional exponent `([eE][-+]?\d+)?`. -/
def parseExpOpt (l : List Nat) : List Nat × List Nat :=
  match l with
  | [] => ([], [])
  | e :: rest =>
    if e = 101 ∨ e = 69 then
      match rest with
      | [] => ([], [e])
      | s :: rest2 =>
        if s = 43 ∨ s = 45 then
          match spanDigits rest2 with
          | ([], _) => ([], e :: rest)
          | (d, r3) => (e :: s :: d, r3)
        else
          match spanDigits rest with
          | ([], _) => ([], e :: rest)
          | (d, r3) => (e :: d, r3)
    else ([], e :: rest)

/-- Unsigned number numeral. -/
def parseNumMag (l : List Nat) : Option (List Nat × List Nat) :=
  match parseIntDigits l with
  | none => none
  | some (ip, r1) =>
    match parseFracOpt r1 with
    | (fr, r2) =>
      match parseExpOpt r2 with
      | (ex, r3) => some (ip ++ fr ++ ex, r3)

/-- The full number numeral with optional leading minus; returns the
numeral consumed (kept verbatim in `Json.num`) and the rest. -/
def parseNumber (l : List Nat) : Option (List Nat × List Nat) :=
  match l with
  | [] => none
  | c :: r =>
    if c = 45 then (parseNumMag r).map fun p => (45 :: p.1, p.2)
    else parseNumMag (c :: r)

/-- A fixed word at the head of the input. -/
def litMatch (pat l : List Nat) : Option (List Nat) :=
  if leadsWith pat l then some (l.drop pat.length) else none

mutual

/-- The JSON value scanner, fueled (each nesting level and each
array/object item costs one unit; `loads` supplies twice the input length,
which the structure of the input cannot exhaust). -/
def parseVal : Nat → List Nat → Option (Json × List Nat)
  | 0, _ => none
  | fuel + 1, l =>
    match l with
    | [] => none
    | c :: cs =>
      if c = 34 then (strRun .norm cs).map fun p => (.str p.1, p.2)
      else if c = 123 then
        match skipWs cs with
        | [] => none
        | c2 :: r2 =>
          if c2 = 125 then some (.obj .nil, r2)
          else (parseObjItems fuel .nil (c2 :: r2)).map fun p => (.obj p.1, p.2)
      else if c = 91 then
        match skipWs cs with
        | [] => none
        | c2 :: r2 =>
          if c2 = 93 then some (.arr .nil, r2)
          else (parseArrItems fuel (c2 :: r2)).map fun p => (.arr p.1, p.2)
      else if c = 110 then
        match litMatch (s2n "ull") cs with
        | some r => some (.null, r)
        | none => none
      else if c = 116 then
        match litMatch (s2n "rue") cs with
        | some r => some (.bool true, r)
        | none => none
      else if c = 102 then
        match litMatch (s2n "alse") cs with
        | some r => some (.bool false, r)
        | none => none
      else if c = 78 then
        match litMatch (s2n "aN") cs with
        | some r => some (.nan, r)
        | none => none
      else if c = 73 then
        match litMatch (s2n "nfinity") cs with
        | some r => some (.inf, r)
        | none => none
      else if c = 45 then
        match litMatch (s2n "Infinity") cs with
        | some r => some (.ninf, r)
        | none => (parseNumber (c :: cs)).map fun p => (.num p.1, p.2)
      else if 48 ≤ c ∧ c ≤ 57 then
        (parseNumber (c :: cs)).map fun p => (.num p.1, p.2)
      else none

/-- Array items: a value, then `,` and further items or the closing `]`. -/
def parseArrItems : Nat → List Nat → Option (JList × List Nat)
  | 0, _ => none
  | fuel + 1, l =>
    match parseVal fuel l with
    | none => none
    | some (v, r) =>
      match skipWs r with
      | [] => none
      | c2 :: r2 =>
        if c2 = 44 then (parseArrItems fuel (skipWs r2)).map fun p => (.cons v p.1, p.2)
        else if c2 = 93 then some (.cons v .nil, r2)
        else none

/-- Object members: a quoted key, `:`, a value, then `,` and further
members or the closing brace; members accumulate with Python's dict
assignment semantics (`JObj.insert`). -/
def parseObjItems : Nat → JObj → List Nat → Option (JObj × List Nat)
  | 0, _, _ => none
  | fuel + 1, acc, l =>
    match l with
    | [] => none
    | c :: r =>
      if c = 34 then
        match strRun .norm r with
        | none => none
        | some (k, r2) =>
          match skipWs r2 with
          | [] => none
          | c3 :: r3 =>
            if c3 = 58 then
              match parseVal fuel (skipWs r3) with
              | none => none
              | some (v, r4) =>
                match skipWs r4 with
                | [] => none
                | c4 :: r5 =>
                  if c4 = 44 then parseObjItems fuel (acc.insert k v) (skipWs r5)
                  else if c4 = 125 then some (acc.insert k v, r5)
                  else none
            else none
      else none

end

/-- Python's `json.loads`: skip leading whitespace, scan one value, then
only whitespace may remain (`Extra data` otherwise). -/
def loads (raw : List Nat) : Option Json :=
  match parseVal (2 * raw.length + 2) (skipWs raw) with
  | some (v, rest) => if (skipWs rest).isEmpty then some v else none
  | none => none

/-- The full Result Interpreter (source lines 159-212): parse the
completion text; on failure show the raw text (`RawTextFallback`); on
success run the display/statistics step. -/
def interpret (raw : List Nat) : Outcome :=
  match loads raw with
  | none => .fallback raw
  | some v => analyzeJson v

section SanityParser

example : loads (s2n "[1, 2, 3]") =
    some (.arr (.cons (.num [49]) (.cons (.num [50]) (.cons (.num [51]) .nil)))) := by
  rfl
example : loads (s2n "NaN") = some .nan := by rfl
example : loads (s2n "nope") = none := by rfl
example : loads (s2n " \x7b\"k\": true\x7d ") =
    some (.obj (.cons (s2n "k") (.bool true) .nil)) := by rfl
example : loads (s2n "\"a\\u0041\\ud83d\\ude00b\"") =
    some (.str (97 :: 65 :: 128512 :: [98])) := by rfl
example : loads (s2n "12.5e-1") = some (.num (s2n "12.5e-1")) := by rfl
example : loads (s2n "[1,]") = none := by rfl
example : loads (s2n "01") = none := by rfl

end SanityParser

/-! ## The JSON serializer (Python's `json.dumps(..., indent=2)`)

The download artifact of source line 201.  With an indent, Python places
every container item on its own line, two more spaces of indentation per
level, item separator `,`, key separator `: `; strings are escaped with
`ensure_ascii` (everything outside printable ASCII becomes `\uXXXX`, with
surrogate pairs beyond the BMP); numbers are emitted as their numerals
(see the file comment on the number model). -/

/-- Lowercase hexadecimal digit. -/
def toHexDig (k : Nat) : Nat := if k < 10 then 48 + k else 87 + k

/-- The four hex digits of a BMP code unit. -/
def hex4 (u : Nat) : List Nat :=
  [toHexDig (u / 4096), toHexDig (u / 256 % 16), toHexDig (u / 16 % 16),
    toHexDig (u % 16)]

/-- Python's `ensure_ascii` escaping of one character: quote and backslash
get their two-character escapes, the five short control escapes apply,
every other character outside `0x20`-`0x7E` becomes `\uXXXX` (a surrogate
pair for astral characters), and printable ASCII passes through. -/
def escChar (c : Nat) : List Nat :=
  if c = 34 then [92, 34]
  else if c = 92 then [92, 92]
  else if c = 8 then [92, 98]
  else if c = 12 then [92, 102]
  else if c = 10 then [92, 110]
  else if c = 13 then [92, 114]
  else if c = 9 then [92, 116]
  else if c < 32 ∨ 127 ≤ c then
    if c < 65536 then 92 :: 117 :: hex4 c
    else 92 :: 117 :: hex4 (55296 + (c - 65536) / 1024) ++
      92 :: 117 :: hex4 (56320 + (c - 65536) % 1024)
  else [c]

/-- Escape a whole string body. -/
def escStr : List Nat → List Nat
  | [] => []
  | c :: cs => escChar c ++ escStr cs

/-- `n` spaces. -/
def sp (n : Nat) : List Nat := List.replicate n 32

mutual

/-- `json.dumps(v, indent=2)` at nesting depth `d`. -/
def dumpsAt : Nat → Json → List Nat
  | _, .null => s2n "null"
  | _, .bool true => s2n "true"
  | _, .bool false => s2n "false"
  | _, .nan => s2n "NaN"
  | _, .inf => s2n "Infinity"
  | _, .ninf => s2n "-Infinity"
  | _, .num lit => lit
  | _, .str s => 34 :: escStr s ++ [34]
  | d, .arr l =>
    match l with
    | .nil => s2n "[]"
    | _ => 91 :: dumpItems (d + 1) l ++ 10 :: sp (2 * d) ++ [93]
  | d, .obj o =>
    match o with
    | .nil => [123, 125]
    | _ => 123 :: dumpKVs (d + 1) o ++ 10 :: sp (2 * d) ++ [125]

/-- Array items, each on its own indented line, separated by commas. -/
def dumpItems : Nat → JList → List Nat
  | _, .nil => []
  | d, .cons x xs =>
    10 :: sp (2 * d) ++ dumpsAt d x ++
      (match xs with
       | .nil => []
       | _ => 44 :: dumpItems d xs)

/-- Object members, `"key": value` each on its own indented line. -/
def dumpKVs : Nat → JObj → List Nat
  | _, .nil => []
  | d, .cons k v t =>
    10 :: sp (2 * d) ++ 34 :: escStr k ++ 34 :: 58 :: 32 :: dumpsAt d v ++
      (match t with
       | .nil => []
       | _ => 44 :: dumpKVs d t)

end

/-- The download artifact: top-level serialization. -/
def dumps (v : Json) : List Nat := dumpsAt 0 v

mutual

/-- Python `==` on parsed JSON values: `nan` equals nothing (not even
itself), booleans equal the numbers `0`/`1`, numbers compare by value,
lists compare pointwise and dicts by key lookup.  (CPython's identity
shortcut inside containers does not apply here: the two sides come from
independent parses, so all objects are distinct.) -/
def pyEq : Json → Json → Bool
  | .nan, _ => false
  | .null, .nan => false
  | .bool _, .nan => false
  | .num _, .nan => false
  | .str _, .nan => false
  | .inf, .nan => false
  | .ninf, .nan => false
  | .arr _, .nan => false
  | .obj _, .nan => false
  | .null, .null => true
  | .bool a, .bool b => a == b
  | .bool a, .num lit =>
      (if a then (1 : Int) else 0) * ((numVal lit).den : Int) == (numVal lit).num
  | .num lit, .bool b =>
      (if b then (1 : Int) else 0) * ((numVal lit).den : Int) == (numVal lit).num
  | .num l1, .num l2 =>
      (numVal l1).num * ((numVal l2).den : Int) ==
        (numVal l2).num * ((numVal l1).den : Int)
  | .str a, .str b => a == b
  | .inf, .inf => true
  | .ninf, .ninf => true
  | .arr a, .arr b => pyEqL a b
  | .obj a, .obj b => JObj.length a == JObj.length b && pyEqO a b
  | _, _ => false

/-- Python `==` on lists: pointwise. -/
def pyEqL : JList → JList → Bool
  | .nil, .nil => true
  | .cons x xs, .cons y ys => pyEq x y && pyEqL xs ys
  | _, _ => false

/-- Python `==` restricted to: every member of the first dict is found in
the second with an equal value (dict equality once lengths agree). -/
def pyEqO : JObj → JObj → Bool
  | .nil, _ => true
  | .cons k x t, b =>
      (match JObj.lookup k b with
       | some y => pyEq x y
       | none => false) && pyEqO t b

end

mutual

/-- No `NaN` anywhere in the value. -/
def noNaN : Json → Bool
  | .nan => false
  | .arr l => noNaNL l
  | .obj o => noNaNO o
  | _ => true

/-- No `NaN` in a list of items. -/
def noNaNL : JList → Bool
  | .nil => true
  | .cons x t => noNaN x && noNaNL t

/-- No `NaN` in object values. -/
def noNaNO : JObj → Bool
  | .nil => true
  | .cons _ v t => noNaN v && noNaNO t

end

/-- No high surrogate immediately followed by a low surrogate in a string:
`ensure_ascii` escapes such adjacent characters into what the parser
re-combines into a single astral character, which is Python's own
round-trip anomaly for strings containing an adjacent lone-surrogate
pair. -/
def pairFreeStr : List Nat → Bool
  | [] => true
  | [_] => true
  | c1 :: c2 :: r =>
      !((55296 ≤ c1 && c1 ≤ 56319) && (56320 ≤ c2 && c2 ≤ 57343)) &&
        pairFreeStr (c2 :: r)

mutual

/-- No string or key anywhere holds an adjacent high-low surrogate pair. -/
def surrFree : Json → Bool
  | .str s => pairFreeStr s
  | .arr l => surrFreeL l
  | .obj o => surrFreeO o
  | _ => true

/-- Surrogate-pair freedom over list items. -/
def surrFreeL : JList → Bool
  | .nil => true
  | .cons x t => surrFree x && surrFreeL t

/-- Surrogate-pair freedom over object members, keys included. -/
def surrFreeO : JObj → Bool
  | .nil => true
  | .cons k v t => pairFreeStr k && surrFree v && surrFreeO t

end

/-! ## Well-formedness of parsed values

The invariants every `loads` output satisfies, used to prove the
serialize/re-parse round trip: numerals match the number grammar, string
and key characters are Unicode code points, and object keys are unique. -/

/-- Shape of the grammar's integer part. -/
def ipShape (ip : List Nat) : Prop :=
  ip = [48] ∨
    ∃ c d, ip = c :: d ∧ 49 ≤ c ∧ c ≤ 57 ∧ ∀ x ∈ d, 48 ≤ x ∧ x ≤ 57

/-- A non-empty run of decimal digits. -/
def digitRun (d : List Nat) : Prop := d ≠ [] ∧ ∀ c ∈ d, 48 ≤ c ∧ c ≤ 57

/-- Shape of the grammar's optional fraction. -/
def frShape (fr : List Nat) : Prop := fr = [] ∨ ∃ d, fr = 46 :: d ∧ digitRun d

/-- Shape of the grammar's optional exponent. -/
def exShape (ex : List Nat) : Prop :=
  ex = [] ∨
    ∃ e s d, ex = e :: s ++ d ∧ (e = 101 ∨ e = 69) ∧
      (s = [] ∨ s = [43] ∨ s = [45]) ∧ digitRun d

/-- A full numeral of the number grammar. -/
def numShape (lit : List Nat) : Prop :=
  ∃ sgn ip fr ex, lit = sgn ++ ip ++ fr ++ ex ∧ (sgn = [] ∨ sgn = [45]) ∧
    ipShape ip ∧ frShape fr ∧ exShape ex

mutual

/-- Parser invariant on values. -/
def wfJ : Json → Prop
  | .num lit => numShape lit
  | .str s => ∀ c ∈ s, c < 1114112
  | .arr l => wfL l
  | .obj o => wfO o
  | _ => True

/-- Parser invariant on array items. -/
def wfL : JList → Prop
  | .nil => True
  | .cons x t => wfJ x ∧ wfL t

/-- Parser invariant on object members: valid key characters, the key
absent from the remaining members (Python dict construction), a
well-formed value. -/
def wfO : JObj → Prop
  | .nil => True
  | .cons k v t => (∀ c ∈ k, c < 1114112) ∧ JObj.fresh k t = true ∧ wfJ v ∧ wfO t

end

/-- What may follow a serialized value inside a `dumps` output: nothing,
a comma, or a newline.  None of these can extend a numeral. -/
def stopOk : List Nat → Bool
  | [] => true
  | c :: _ => c == 44 || c == 10

mutual

/-- Fuel sufficient for `parseVal` on this value's serialization. -/
def jfuel : Json → Nat
  | .arr l => 2 + jlf l
  | .obj o => 2 + jof o
  | _ => 1

/-- Fuel sufficient for `parseArrItems` on these items. -/
def jlf : JList → Nat
  | .nil => 0
  | .cons x xs => 1 + jfuel x + jlf xs

/-- Fuel sufficient for `parseObjItems` on these members. -/
def jof : JObj → Nat
  | .nil => 0
  | .cons _ v t => 1 + jfuel v + jof t

end

section SanityDumps

example : dumps (.arr (.cons (.num [49]) (.cons (.str (s2n "ab")) .nil))) =
    s2n "[\n  1,\n  \"ab\"\n]" := by rfl
example :
    loads (dumps (.arr (.cons (.num [49]) (.cons (.str (s2n "ab")) .nil)))) =
      some (.arr (.cons (.num [49]) (.cons (.str (s2n "ab")) .nil))) := by rfl
example :
    loads (dumps (.obj (.cons (s2n "k") (.obj (.cons (s2n "x") (.bool true) .nil))
        .nil))) =
      some (.obj (.cons (s2n "k") (.obj (.cons (s2n "x") (.bool true) .nil)) .nil)) := by
  rfl
example : dumps .nan = s2n "NaN" := by rfl
example : loads (dumps (.str [128512, 55296, 65])) = some (.str [128512, 55296, 65]) := by
  rfl
example : pyEq .nan .nan = false := by rfl
example : pyEq (.bool true) (.num [49]) = true := by rfl

end SanityDumps

/-! ## Round-trip lemmas: whitespace and heads -/

/-- Skipping a whitespace character. -/
theorem skipWs_cons_ws (c : Nat) (l : List Nat)
    (h : c = 32 ∨ c = 9 ∨ c = 10 ∨ c = 13) : skipWs (c :: l) = skipWs l := by
  rw [skipWs, if_pos h]

/-- A non-whitespace head stops the skipping. -/
theorem skipWs_cons_not (c : Nat) (l : List Nat)
    (h : ¬(c = 32 ∨ c = 9 ∨ c = 10 ∨ c = 13)) : skipWs (c :: l) = c :: l := by
  rw [skipWs, if_neg h]

/-- Leading spaces are skipped. -/
theorem skipWs_sp (n : Nat) (l : List Nat) : skipWs (sp n ++ l) = skipWs l := by
  induction n with
  | zero => rfl
  | succ m ih =>
    show skipWs ((32 :: sp m) ++ l) = skipWs l
    rw [List.cons_append, skipWs_cons_ws 32 _ (by omega)]
    exact ih

/-- Every serialization of a well-formed value starts with a
non-whitespace character. -/
theorem dumps_head (d : Nat) (v : Json) (hwf : wfJ v) :
    ∃ c r, dumpsAt d v = c :: r ∧ ¬(c = 32 ∨ c = 9 ∨ c = 10 ∨ c = 13) := by
  cases v with
  | null => exact ⟨110, _, rfl, by decide⟩
  | bool b =>
    cases b
    · exact ⟨102, _, rfl, by decide⟩
    · exact ⟨116, _, rfl, by decide⟩
  | nan => exact ⟨78, _, rfl, by decide⟩
  | inf => exact ⟨73, _, rfl, by decide⟩
  | ninf => exact ⟨45, _, rfl, by decide⟩
  | str s => exact ⟨34, _, rfl, by decide⟩
  | num lit =>
    rcases hwf with ⟨sgn, ip, fr, ex, rfl, hsgn, hip, -, -⟩
    rcases hsgn with rfl | rfl
    · rcases hip with rfl | ⟨c, dd, rfl, hc1, hc2, -⟩
      · exact ⟨48, _, rfl, by decide⟩
      · exact ⟨c, _, rfl, by omega⟩
    · exact ⟨45, _, rfl, by decide⟩
  | arr l =>
    cases l with
    | nil => exact ⟨91, _, rfl, by decide⟩
    | cons x xs => exact ⟨91, _, rfl, by decide⟩
  | obj o =>
    cases o with
    | nil => exact ⟨123, _, rfl, by decide⟩
    | cons k v t => exact ⟨123, _, rfl, by decide⟩

/-- Characters survive `skipWs`. -/
theorem chOk_skipWs (l : List Nat) (h : ∀ c ∈ l, c < 1114112) :
    ∀ c ∈ skipWs l, c < 1114112 := by
  induction l with
  | nil => simp [skipWs]
  | cons a as ih =>
    rw [skipWs]
    split
    · exact ih fun c hc => h c (List.mem_cons_of_mem _ hc)
    · exact h

/-! ## Round-trip lemmas: the number grammar -/

/-- The list does not start with a digit. -/
def noDigHead : List Nat → Prop
  | [] => True
  | c :: _ => ¬(48 ≤ c ∧ c ≤ 57)

/-- `stopOk` continuations start with no digit, no dot, no exponent
letter. -/
theorem stopOk_facts (rest : List Nat) (h : stopOk rest = true) :
    noDigHead rest ∧ (∀ c r, rest = c :: r → c ≠ 46 ∧ c ≠ 101 ∧ c ≠ 69) := by
  cases rest with
  | nil => exact ⟨trivial, fun c r hcr => by cases hcr⟩
  | cons c r =>
    have hc : c = 44 ∨ c = 10 := by simpa [stopOk] using h
    constructor
    · show ¬(48 ≤ c ∧ c ≤ 57)
      omega
    · intro c2 r2 hcr
      injection hcr with h1 _
      subst h1
      omega

/-- A maximal digit run parses exactly when followed by a non-digit. -/
theorem spanDigits_exact (d r : List Nat) (hd : ∀ c ∈ d, 48 ≤ c ∧ c ≤ 57)
    (hr : noDigHead r) : spanDigits (d ++ r) = (d, r) := by
  induction d with
  | nil =>
    cases r with
    | nil => rfl
    | cons c rr =>
      show spanDigits (c :: rr) = ([], c :: rr)
      rw [spanDigits, if_neg hr]
  | cons c dd ih =>
    have hc := hd c (List.mem_cons_self c dd)
    show spanDigits (c :: (dd ++ r)) = (c :: dd, r)
    rw [spanDigits, if_pos hc, ih fun x hx => hd x (List.mem_cons_of_mem _ hx)]

/-- What `spanDigits` consumed. -/
theorem spanDigits_sound (l : List Nat) :
    ∀ d r, spanDigits l = (d, r) →
      l = d ++ r ∧ (∀ c ∈ d, 48 ≤ c ∧ c ≤ 57) ∧ noDigHead r := by
  induction l with
  | nil =>
    intro d r h
    rw [spanDigits] at h
    cases h
    exact ⟨rfl, by simp, trivial⟩
  | cons c cs ih =>
    intro d r h
    rw [spanDigits] at h
    by_cases hc : 48 ≤ c ∧ c ≤ 57
    · rw [if_pos hc] at h
      cases h
      obtain ⟨he, hd, hr⟩ := ih _ _ rfl
      exact ⟨by rw [List.cons_append, ← he],
        fun x hx => by
          rcases List.mem_cons.mp hx with rfl | hx2
          · exact hc
          · exact hd x hx2, hr⟩
    · rw [if_neg hc] at h
      cases h
      exact ⟨rfl, by simp, hc⟩

/-- The integer part re-parses exactly before a non-digit continuation. -/
theorem parseIntDigits_exact (ip r : List Nat) (h : ipShape ip)
    (hr : noDigHead r) : parseIntDigits (ip ++ r) = some (ip, r) := by
  rcases h with rfl | ⟨c, dd, rfl, hc1, hc2, hdd⟩
  · show parseIntDigits (48 :: r) = some ([48], r)
    rw [parseIntDigits, if_pos rfl]
  · show parseIntDigits (c :: (dd ++ r)) = some (c :: dd, r)
    rw [parseIntDigits, if_neg (by omega), if_pos (by omega),
      spanDigits_exact dd r hdd hr]

/-- What the integer part parser consumed. -/
theorem parseIntDigits_sound (l : List Nat) (ip r : List Nat)
    (h : parseIntDigits l = some (ip, r)) : ipShape ip ∧ l = ip ++ r := by
  cases l with
  | nil => rw [parseIntDigits] at h; cases h
  | cons c cs =>
    rw [parseIntDigits] at h
    by_cases h48 : c = 48
    · subst h48
      rw [if_pos (by trivial)] at h
      cases h
      exact ⟨Or.inl rfl, rfl⟩
    · rw [if_neg h48] at h
      by_cases hd : 49 ≤ c ∧ c ≤ 57
      · rw [if_pos hd] at h
        cases h
        obtain ⟨he, hds, -⟩ := spanDigits_sound cs _ _ rfl
        exact ⟨Or.inr ⟨c, _, rfl, hd.1, hd.2, hds⟩, by rw [List.cons_append, ← he]⟩
      · rw [if_neg hd] at h
        cases h

/-- A list not starting with a dot passes the optional fraction parser
unchanged. -/
theorem parseFracOpt_not46 (c : Nat) (cs : List Nat) (h46 : c ≠ 46) :
    parseFracOpt (c :: cs) = ([], c :: cs) := by
  show (if c = 46 then _ else ([], c :: cs)) = ([], c :: cs)
  rw [if_neg h46]

/-- After a dot, the fraction is the maximal digit run when non-empty. -/
theorem parseFracOpt_46 (cs : List Nat) :
    parseFracOpt (46 :: cs) =
      (match spanDigits cs with
       | ([], _) => (([] : List Nat), 46 :: cs)
       | (d, r2) => (46 :: d, r2)) := rfl

/-- The optional fraction re-parses exactly. -/
theorem parseFracOpt_exact (fr r : List Nat) (h : frShape fr)
    (hr : noDigHead r) (h46 : ∀ c rr, r = c :: rr → c ≠ 46) :
    parseFracOpt (fr ++ r) = (fr, r) := by
  rcases h with rfl | ⟨d, rfl, hd1, hd2⟩
  · cases r with
    | nil => rfl
    | cons c rr => exact parseFracOpt_not46 c rr (h46 c rr rfl)
  · show parseFracOpt (46 :: (d ++ r)) = (46 :: d, r)
    rw [parseFracOpt_46, spanDigits_exact d r hd2 hr]
    cases d with
    | nil => exact absurd rfl hd1
    | cons x xs => rfl

/-- What the optional fraction parser consumed. -/
theorem parseFracOpt_sound (l fr r : List Nat) (h : parseFracOpt l = (fr, r)) :
    frShape fr ∧ l = fr ++ r := by
  cases l with
  | nil =>
    cases h
    exact ⟨Or.inl rfl, rfl⟩
  | cons c cs =>
    by_cases h46 : c = 46
    · subst h46
      rw [parseFracOpt_46] at h
      rcases hsplit : spanDigits cs with ⟨d, r2⟩
      rw [hsplit] at h
      obtain ⟨he, hds, -⟩ := spanDigits_sound cs _ _ hsplit
      cases d with
      | nil =>
        cases h
        exact ⟨Or.inl rfl, rfl⟩
      | cons x xs =>
        cases h
        refine ⟨Or.inr ⟨x :: xs, rfl, by simp, hds⟩, ?_⟩
        rw [he]
        rfl
    · rw [parseFracOpt_not46 c cs h46] at h
      cases h
      exact ⟨Or.inl rfl, rfl⟩

/-- A list not starting with an exponent letter passes the optional
exponent parser unchanged. -/
theorem parseExpOpt_skip (l : List Nat)
    (h : ∀ c r, l = c :: r → ¬(c = 101 ∨ c = 69)) : parseExpOpt l = ([], l) := by
  cases l with
  | nil => rfl
  | cons c r =>
    show (if c = 101 ∨ c = 69 then _ else ([], c :: r)) = ([], c :: r)
    rw [if_neg (h c r rfl)]

/-- The optional exponent re-parses exactly. -/
theorem parseExpOpt_exact (ex r : List Nat) (h : exShape ex)
    (hr : noDigHead r) (hstop : ∀ c rr, r = c :: rr → ¬(c = 101 ∨ c = 69)) :
    parseExpOpt (ex ++ r) = (ex, r) := by
  rcases h with rfl | ⟨e, s, d, rfl, he, hs, hd1, hd2⟩
  · exact parseExpOpt_skip r hstop
  · have hspan : spanDigits (d ++ r) = (d, r) := spanDigits_exact d r hd2 hr
    rcases hs with rfl | rfl | rfl
    · show parseExpOpt (e :: (d ++ r)) = (e :: d, r)
      cases d with
      | nil => exact absurd rfl hd1
      | cons x xs =>
        have hx := hd2 x (List.mem_cons_self x xs)
        show (if e = 101 ∨ e = 69 then
            (if x = 43 ∨ x = 45 then _ else
              match spanDigits (x :: xs ++ r) with
              | ([], _) => (([] : List Nat), e :: (x :: xs ++ r))
              | (d2, r3) => (e :: d2, r3))
          else _) = (e :: x :: xs, r)
        rw [if_pos he, if_neg (by omega)]
        rw [show ((x :: xs : List Nat) ++ r) = (x :: xs) ++ r from rfl, hspan]
    · show parseExpOpt (e :: 43 :: (d ++ r)) = (e :: 43 :: d, r)
      show (if e = 101 ∨ e = 69 then
          (if (43 : Nat) = 43 ∨ (43 : Nat) = 45 then
            match spanDigits (d ++ r) with
            | ([], _) => (([] : List Nat), e :: 43 :: (d ++ r))
            | (d2, r3) => (e :: 43 :: d2, r3)
          else _)
        else _) = (e :: 43 :: d, r)
      rw [if_pos he, if_pos (Or.inl rfl), hspan]
      cases d with
      | nil => exact absurd rfl hd1
      | cons x xs => rfl
    · show parseExpOpt (e :: 45 :: (d ++ r)) = (e :: 45 :: d, r)
      show (if e = 101 ∨ e = 69 then
          (if (45 : Nat) = 43 ∨ (45 : Nat) = 45 then
            match spanDigits (d ++ r) with
            | ([], _) => (([] : List Nat), e :: 45 :: (d ++ r))
            | (d2, r3) => (e :: 45 :: d2, r3)
          else _)
        else _) = (e :: 45 :: d, r)
      rw [if_pos he, if_pos (Or.inr rfl), hspan]
      cases d with
      | nil => exact absurd rfl hd1
      | cons x xs => rfl

/-- What the optional exponent parser consumed. -/
theorem parseExpOpt_sound (l ex r : List Nat) (h : parseExpOpt l = (ex, r)) :
    exShape ex ∧ l = ex ++ r := by
  cases l with
  | nil =>
    cases h
    exact ⟨Or.inl rfl, rfl⟩
  | cons e rest =>
    by_cases he : e = 101 ∨ e = 69
    · cases rest with
      | nil =>
        have hred : parseExpOpt [e] = ([], [e]) := by
          show (if e = 101 ∨ e = 69 then (([] : List Nat), [e]) else ([], [e])) = _
          split <;> rfl
        rw [hred] at h
        cases h
        exact ⟨Or.inl rfl, rfl⟩
      | cons s rest2 =>
        have hred : parseExpOpt (e :: s :: rest2) =
            (if e = 101 ∨ e = 69 then
              (if s = 43 ∨ s = 45 then
                match spanDigits rest2 with
                | ([], _) => (([] : List Nat), e :: s :: rest2)
                | (d, r3) => (e :: s :: d, r3)
              else
                match spanDigits (s :: rest2) with
                | ([], _) => (([] : List Nat), e :: s :: rest2)
                | (d, r3) => (e :: d, r3))
            else ([], e :: s :: rest2)) := rfl
        rw [hred, if_pos he] at h
        by_cases hs : s = 43 ∨ s = 45
        · rw [if_pos hs] at h
          rcases hsplit : spanDigits rest2 with ⟨d, r3⟩
          rw [hsplit] at h
          obtain ⟨hdec, hds, -⟩ := spanDigits_sound rest2 _ _ hsplit
          cases d with
          | nil =>
            cases h
            exact ⟨Or.inl rfl, rfl⟩
          | cons x xs =>
            cases h
            refine ⟨Or.inr ⟨e, [s], x :: xs, by simp, he, ?_, by simp, hds⟩, ?_⟩
            · rcases hs with rfl | rfl
              · exact Or.inr (Or.inl rfl)
              · exact Or.inr (Or.inr rfl)
            · rw [hdec]
              rfl
        · rw [if_neg hs] at h
          rcases hsplit : spanDigits (s :: rest2) with ⟨d, r3⟩
          rw [hsplit] at h
          obtain ⟨hdec, hds, -⟩ := spanDigits_sound (s :: rest2) _ _ hsplit
          cases d with
          | nil =>
            cases h
            exact ⟨Or.inl rfl, rfl⟩
          | cons x xs =>
            cases h
            refine ⟨Or.inr ⟨e, [], x :: xs, by simp, he, by simp, by simp, hds⟩, ?_⟩
            rw [show (e :: x :: xs : List Nat) ++ r = e :: ((x :: xs) ++ r) from rfl,
              ← hdec]
    · rw [parseExpOpt_skip (e :: rest) (fun c rr hcr => by cases hcr; exact he)] at h
      cases h
      exact ⟨Or.inl rfl, rfl⟩

/-- Without a leading minus, `parseNumber` is the unsigned parser. -/
theorem parseNumber_not45 (c : Nat) (cs : List Nat) (h : c ≠ 45) :
    parseNumber (c :: cs) = parseNumMag (c :: cs) := by
  show (if c = 45 then _ else parseNumMag (c :: cs)) = parseNumMag (c :: cs)
  rw [if_neg h]

/-- The whole numeral re-parses exactly before a `stopOk` continuation. -/
theorem parseNumber_exact (lit rest : List Nat) (h : numShape lit)
    (hstop : stopOk rest = true) : parseNumber (lit ++ rest) = some (lit, rest) := by
  obtain ⟨hnd, hne⟩ := stopOk_facts rest hstop
  rcases h with ⟨sgn, ip, fr, ex, rfl, hsgn, hip, hfr, hex⟩
  have hmag : parseNumMag ((ip ++ fr ++ ex) ++ rest) = some (ip ++ fr ++ ex, rest) := by
    have hfrdig : noDigHead (fr ++ ex ++ rest) := by
      rcases hfr with rfl | ⟨d, rfl, -, -⟩
      · rcases hex with rfl | ⟨e, s, d, rfl, he, -, -, -⟩
        · exact hnd
        · show ¬(48 ≤ e ∧ e ≤ 57)
          omega
      · show ¬(48 ≤ 46 ∧ (46 : Nat) ≤ 57)
        omega
    have h1 : parseIntDigits (ip ++ (fr ++ ex ++ rest)) = some (ip, fr ++ ex ++ rest) :=
      parseIntDigits_exact ip _ hip hfrdig
    have hexdig : noDigHead (ex ++ rest) := by
      rcases hex with rfl | ⟨e, s, d, rfl, he, -, -, -⟩
      · exact hnd
      · show ¬(48 ≤ e ∧ e ≤ 57)
        omega
    have h2 : parseFracOpt (fr ++ (ex ++ rest)) = (fr, ex ++ rest) := by
      refine parseFracOpt_exact fr _ hfr hexdig ?_
      intro c rr hcr
      rcases hex with rfl | ⟨e, s, d, rfl, he, -, -, -⟩
      · exact (hne c rr hcr).1
      · cases hcr
        omega
    have h3 : parseExpOpt (ex ++ rest) = (ex, rest) := by
      refine parseExpOpt_exact ex rest hex hnd ?_
      intro c rr hcr
      have := hne c rr hcr
      omega
    rw [show (ip ++ fr ++ ex) ++ rest = ip ++ (fr ++ ex ++ rest) by simp]
    simp only [parseNumMag, h1]
    rw [show fr ++ ex ++ rest = fr ++ (ex ++ rest) by simp]
    simp only [h2, h3]
  rcases hsgn with rfl | rfl
  · have hip0 : ∃ c cs, ip = c :: cs ∧ c ≠ 45 := by
      rcases hip with rfl | ⟨c, dd, rfl, hc1, -, -⟩
      · exact ⟨48, [], rfl, by omega⟩
      · exact ⟨c, dd, rfl, by omega⟩
    obtain ⟨c, cs, rfl, hc45⟩ := hip0
    show parseNumber (([] ++ (c :: cs) ++ fr ++ ex) ++ rest) =
      some ([] ++ (c :: cs) ++ fr ++ ex, rest)
    rw [show ([] ++ (c :: cs) ++ fr ++ ex) ++ rest =
        c :: (cs ++ fr ++ ex ++ rest) by simp]
    rw [parseNumber_not45 c _ hc45]
    rw [show c :: (cs ++ fr ++ ex ++ rest) = ((c :: cs) ++ fr ++ ex) ++ rest by simp]
    rw [hmag]
    simp
  · show parseNumber (([45] ++ ip ++ fr ++ ex) ++ rest) =
      some ([45] ++ ip ++ fr ++ ex, rest)
    rw [show ([45] ++ ip ++ fr ++ ex) ++ rest = 45 :: ((ip ++ fr ++ ex) ++ rest) by simp]
    show (parseNumMag ((ip ++ fr ++ ex) ++ rest)).map (fun p => (45 :: p.1, p.2)) = _
    rw [hmag]
    rfl

/-- What the unsigned numeral parser consumed has the grammar's shape. -/
theorem parseNumMag_sound (l lit r : List Nat) (h : parseNumMag l = some (lit, r)) :
    (∃ ip fr ex, lit = ip ++ fr ++ ex ∧ ipShape ip ∧ frShape fr ∧ exShape ex) ∧
      l = lit ++ r := by
  cases hi : parseIntDigits l with
  | none => rw [parseNumMag, hi] at h; cases h
  | some p =>
    rcases p with ⟨ip, r1⟩
    rcases hf : parseFracOpt r1 with ⟨fr, r2⟩
    rcases hx : parseExpOpt r2 with ⟨ex, r3⟩
    rw [parseNumMag, hi] at h
    simp only [hf, hx] at h
    cases h
    obtain ⟨hip, hl1⟩ := parseIntDigits_sound l ip r1 hi
    obtain ⟨hfr, hl2⟩ := parseFracOpt_sound r1 fr r2 hf
    obtain ⟨hev, hl3⟩ := parseExpOpt_sound r2 ex _ hx
    refine ⟨⟨ip, fr, ex, rfl, hip, hfr, hev⟩, ?_⟩
    rw [hl1, hl2, hl3]
    simp

/-- What `parseNumber` consumed is a numeral of the grammar. -/
theorem parseNumber_sound (l lit r : List Nat) (h : parseNumber l = some (lit, r)) :
    numShape lit ∧ l = lit ++ r := by
  cases l with
  | nil => cases h
  | cons c cs =>
    by_cases hc : c = 45
    · subst hc
      rw [show parseNumber (45 :: cs) =
          (parseNumMag cs).map (fun p => (45 :: p.1, p.2)) from rfl] at h
      cases hm : parseNumMag cs with
      | none => rw [hm] at h; cases h
      | some p =>
        rcases p with ⟨m, r2⟩
        rw [hm] at h
        cases h
        obtain ⟨⟨ip, fr, ex, rfl, hip, hfr, hev⟩, hdec⟩ := parseNumMag_sound cs _ _ hm
        refine ⟨⟨[45], ip, fr, ex, by simp, Or.inr rfl, hip, hfr, hev⟩, ?_⟩
        rw [hdec]
        rfl
    · rw [parseNumber_not45 c cs hc] at h
      obtain ⟨⟨ip, fr, ex, rfl, hip, hfr, hev⟩, hdec⟩ := parseNumMag_sound _ _ _ h
      exact ⟨⟨[], ip, fr, ex, by simp, Or.inl rfl, hip, hfr, hev⟩, hdec⟩

/-! ## Round-trip lemmas: strings -/

/-- Hex digits print/parse inversely. -/
theorem hexDigVal_toHexDig (k : Nat) (hk : k < 16) :
    hexDigVal (toHexDig k) = some k := by
  unfold toHexDig hexDigVal
  by_cases h : k < 10
  · rw [if_pos h, if_pos (by omega)]
    exact congrArg some (by omega)
  · rw [if_neg h, if_neg (by omega), if_pos (by omega)]
    exact congrArg some (by omega)

/-- Reading the four hex digits of a BMP code unit from the `\u` state. -/
theorem strRun_hex4 (u : Nat) (hu : u < 65536) (l : List Nat) :
    strRun (.hex 3 0) (hex4 u ++ l) =
      (if 55296 ≤ u ∧ u ≤ 56319 then strRun (.hi u) l
       else (strRun .norm l).map fun p => (u :: p.1, p.2)) := by
  have e3 : hexDigVal (toHexDig (u / 4096)) = some (u / 4096) :=
    hexDigVal_toHexDig _ (by omega)
  have e2 : hexDigVal (toHexDig (u / 256 % 16)) = some (u / 256 % 16) :=
    hexDigVal_toHexDig _ (by omega)
  have e1 : hexDigVal (toHexDig (u / 16 % 16)) = some (u / 16 % 16) :=
    hexDigVal_toHexDig _ (by omega)
  have e0 : hexDigVal (toHexDig (u % 16)) = some (u % 16) :=
    hexDigVal_toHexDig _ (by omega)
  show strRun (.hex 3 0) (toHexDig (u / 4096) :: toHexDig (u / 256 % 16) ::
    toHexDig (u / 16 % 16) :: toHexDig (u % 16) :: l) = _
  simp only [strRun, e3, e2, e1, e0]
  rw [show ((0 * 16 + u / 4096) * 16 + u / 256 % 16) * 16 + u / 16 % 16 =
    u / 16 from by omega]
  rw [show u / 16 * 16 + u % 16 = u from by omega]

/-- Reading the four hex digits of the second `\u` after a pending high
surrogate. -/
theorem strRun_hiHex4 (w u2 : Nat) (hu : u2 < 65536) (l : List Nat) :
    strRun (.hiHex w 3 0) (hex4 u2 ++ l) =
      (if 56320 ≤ u2 ∧ u2 ≤ 57343 then
        (strRun .norm l).map fun p =>
          ((65536 + (w - 55296) * 1024 + (u2 - 56320)) :: p.1, p.2)
       else if 55296 ≤ u2 ∧ u2 ≤ 56319 then
        (strRun (.hi u2) l).map fun p => (w :: p.1, p.2)
       else (strRun .norm l).map fun p => (w :: u2 :: p.1, p.2)) := by
  have e3 : hexDigVal (toHexDig (u2 / 4096)) = some (u2 / 4096) :=
    hexDigVal_toHexDig _ (by omega)
  have e2 : hexDigVal (toHexDig (u2 / 256 % 16)) = some (u2 / 256 % 16) :=
    hexDigVal_toHexDig _ (by omega)
  have e1 : hexDigVal (toHexDig (u2 / 16 % 16)) = some (u2 / 16 % 16) :=
    hexDigVal_toHexDig _ (by omega)
  have e0 : hexDigVal (toHexDig (u2 % 16)) = some (u2 % 16) :=
    hexDigVal_toHexDig _ (by omega)
  show strRun (.hiHex w 3 0) (toHexDig (u2 / 4096) :: toHexDig (u2 / 256 % 16) ::
    toHexDig (u2 / 16 % 16) :: toHexDig (u2 % 16) :: l) = _
  simp only [strRun, e3, e2, e1, e0]
  rw [show ((0 * 16 + u2 / 4096) * 16 + u2 / 256 % 16) * 16 + u2 / 16 % 16 =
    u2 / 16 from by omega]
  rw [show u2 / 16 * 16 + u2 % 16 = u2 from by omega]

/-- The head of the string is not a low surrogate. -/
def lowFreeHead : List Nat → Prop
  | [] => True
  | c :: _ => ¬(56320 ≤ c ∧ c ≤ 57343)

/-- Adjacent-pair freedom passes to the tail. -/
theorem pairFreeStr_tail (c : Nat) (s : List Nat)
    (h : pairFreeStr (c :: s) = true) : pairFreeStr s = true := by
  cases s with
  | nil => rfl
  | cons c2 r =>
    have hh : ((c < 55296 ∨ 56319 < c) ∨ c2 < 56320 ∨ 57343 < c2) ∧
        pairFreeStr (c2 :: r) = true := by simpa [pairFreeStr] using h
    exact hh.2

/-- After a high surrogate, adjacent-pair freedom forbids a low-surrogate
head. -/
theorem pairFreeStr_head (c : Nat) (s : List Nat)
    (h : pairFreeStr (c :: s) = true) (hc1 : 55296 ≤ c) (hc2 : c ≤ 56319) :
    lowFreeHead s := by
  cases s with
  | nil => trivial
  | cons c2 r =>
    have hh : ((c < 55296 ∨ 56319 < c) ∨ c2 < 56320 ∨ 57343 < c2) ∧
        pairFreeStr (c2 :: r) = true := by simpa [pairFreeStr] using h
    show ¬(56320 ≤ c2 ∧ c2 ≤ 57343)
    have h1 := hh.1
    intro hc
    omega

/-- Printable non-special ASCII passes through the escaper. -/
theorem escChar_raw (c : Nat) (h1 : 32 ≤ c) (h2 : c ≤ 126) (h3 : c ≠ 34)
    (h4 : c ≠ 92) : escChar c = [c] := by
  unfold escChar
  have n8 : ¬c = 8 := by omega
  have n12 : ¬c = 12 := by omega
  have n10 : ¬c = 10 := by omega
  have n13 : ¬c = 13 := by omega
  have n9 : ¬c = 9 := by omega
  have nr : ¬(c < 32 ∨ 127 ≤ c) := by omega
  rw [if_neg h3, if_neg h4, if_neg n8, if_neg n12, if_neg n10, if_neg n13,
    if_neg n9, if_neg nr]

/-- Non-printable BMP characters (other than the five short escapes)
escape to a single `\uXXXX`. -/
theorem escChar_u (c : Nat) (hioc : (c < 32 ∧ c ≠ 8 ∧ c ≠ 9 ∧ c ≠ 10 ∧ c ≠ 12 ∧ c ≠ 13) ∨
    (127 ≤ c ∧ c < 65536)) : escChar c = 92 :: 117 :: hex4 c := by
  unfold escChar
  have n34 : ¬c = 34 := by omega
  have n92 : ¬c = 92 := by omega
  have n8 : ¬c = 8 := by omega
  have n12 : ¬c = 12 := by omega
  have n10 : ¬c = 10 := by omega
  have n13 : ¬c = 13 := by omega
  have n9 : ¬c = 9 := by omega
  rw [if_neg n34, if_neg n92, if_neg n8, if_neg n12, if_neg n10, if_neg n13,
    if_neg n9, if_pos (by omega), if_pos (by omega)]

/-- Astral characters escape to a surrogate pair. -/
theorem escChar_astral (c : Nat) (h : 65536 ≤ c) :
    escChar c = 92 :: 117 :: hex4 (55296 + (c - 65536) / 1024) ++
      92 :: 117 :: hex4 (56320 + (c - 65536) % 1024) := by
  unfold escChar
  have n34 : ¬c = 34 := by omega
  have n92 : ¬c = 92 := by omega
  have n8 : ¬c = 8 := by omega
  have n12 : ¬c = 12 := by omega
  have n10 : ¬c = 10 := by omega
  have n13 : ¬c = 13 := by omega
  have n9 : ¬c = 9 := by omega
  rw [if_neg n34, if_neg n92, if_neg n8, if_neg n12, if_neg n10, if_neg n13,
    if_neg n9, if_pos (by omega), if_neg (by omega)]

/-- Scanning an escaped surrogate pair from the plain state combines it
into the astral code point, as Python's `py_scanstring` does. -/
theorem strRun_uu (H L : Nat) (hH : 55296 ≤ H ∧ H ≤ 56319)
    (hL : 56320 ≤ L ∧ L ≤ 57343) (E : List Nat) :
    strRun .norm (92 :: 117 :: (hex4 H ++ (92 :: 117 :: (hex4 L ++ E)))) =
      (strRun .norm E).map fun p =>
        ((65536 + (H - 55296) * 1024 + (L - 56320)) :: p.1, p.2) := by
  rw [show strRun SState.norm (92 :: 117 ::
        (hex4 H ++ (92 :: 117 :: (hex4 L ++ E)))) =
      strRun (.hex 3 0) (hex4 H ++ (92 :: 117 :: (hex4 L ++ E))) from rfl,
    strRun_hex4 H (by omega), if_pos hH,
    show strRun (SState.hi H) (92 :: 117 :: (hex4 L ++ E)) =
      strRun (.hiHex H 3 0) (hex4 L ++ E) from rfl,
    strRun_hiHex4 H L (by omega), if_pos hL]

/-- Scanning an escaped surrogate pair with a pending high surrogate: the
pending one is emitted and the pair still combines. -/
theorem strRun_uu_hi (w H L : Nat) (hH : 55296 ≤ H ∧ H ≤ 56319)
    (hL : 56320 ≤ L ∧ L ≤ 57343) (E : List Nat) :
    strRun (.hi w) (92 :: 117 :: (hex4 H ++ (92 :: 117 :: (hex4 L ++ E)))) =
      (strRun .norm E).map fun p =>
        (w :: (65536 + (H - 55296) * 1024 + (L - 56320)) :: p.1, p.2) := by
  rw [show strRun (SState.hi w) (92 :: 117 ::
        (hex4 H ++ (92 :: 117 :: (hex4 L ++ E)))) =
      strRun (.hiHex w 3 0) (hex4 H ++ (92 :: 117 :: (hex4 L ++ E))) from rfl,
    strRun_hiHex4 w H (by omega), if_neg (by omega), if_pos hH,
    show strRun (SState.hi H) (92 :: 117 :: (hex4 L ++ E)) =
      strRun (.hiHex H 3 0) (hex4 L ++ E) from rfl,
    strRun_hiHex4 H L (by omega), if_pos hL]
  cases strRun SState.norm E <;> rfl

/-- One-character step of the escape round trip from the plain state: if the
tail scans correctly (and also from a pending-high state when the character is
a high surrogate), then the escaped character followed by the tail scans to
the character consed on. -/
theorem escStep_norm : ∀ c, c < 1114112 → ∀ E s2 rest,
    strRun .norm E = some (s2, rest) →
    (55296 ≤ c → c ≤ 56319 → strRun (.hi c) E = some (c :: s2, rest)) →
    strRun .norm (escChar c ++ E) = some (c :: s2, rest) := by
  intro c hc E s2 rest h1 h2
  by_cases h34 : c = 34
  · subst h34
    rw [show escChar 34 ++ E = 92 :: 34 :: E from rfl,
      show strRun SState.norm (92 :: 34 :: E) =
        (strRun .norm E).map (fun p => (34 :: p.1, p.2)) from rfl, h1]
    rfl
  · by_cases h92 : c = 92
    · subst h92
      rw [show escChar 92 ++ E = 92 :: 92 :: E from rfl,
        show strRun SState.norm (92 :: 92 :: E) =
          (strRun .norm E).map (fun p => (92 :: p.1, p.2)) from rfl, h1]
      rfl
    · by_cases h8 : c = 8
      · subst h8
        rw [show escChar 8 ++ E = 92 :: 98 :: E from rfl,
          show strRun SState.norm (92 :: 98 :: E) =
            (strRun .norm E).map (fun p => (8 :: p.1, p.2)) from rfl, h1]
        rfl
      · by_cases h9 : c = 9
        · subst h9
          rw [show escChar 9 ++ E = 92 :: 116 :: E from rfl,
            show strRun SState.norm (92 :: 116 :: E) =
              (strRun .norm E).map (fun p => (9 :: p.1, p.2)) from rfl, h1]
          rfl
        · by_cases h10 : c = 10
          · subst h10
            rw [show escChar 10 ++ E = 92 :: 110 :: E from rfl,
              show strRun SState.norm (92 :: 110 :: E) =
                (strRun .norm E).map (fun p => (10 :: p.1, p.2)) from rfl, h1]
            rfl
          · by_cases h12 : c = 12
            · subst h12
              rw [show escChar 12 ++ E = 92 :: 102 :: E from rfl,
                show strRun SState.norm (92 :: 102 :: E) =
                  (strRun .norm E).map (fun p => (12 :: p.1, p.2)) from rfl, h1]
              rfl
            · by_cases h13 : c = 13
              · subst h13
                rw [show escChar 13 ++ E = 92 :: 114 :: E from rfl,
                  show strRun SState.norm (92 :: 114 :: E) =
                    (strRun .norm E).map (fun p => (13 :: p.1, p.2)) from rfl, h1]
                rfl
              · by_cases hraw : 32 ≤ c ∧ c ≤ 126
                · rw [escChar_raw c hraw.1 hraw.2 h34 h92,
                    show ([c] ++ E) = c :: E from rfl]
                  simp only [strRun]
                  rw [if_neg h34, if_neg h92, if_neg (by omega), h1]
                  rfl
                · by_cases hbmp : c < 65536
                  · rw [escChar_u c (by omega),
                      show (92 :: 117 :: hex4 c) ++ E = 92 :: 117 :: (hex4 c ++ E)
                        from rfl,
                      show strRun SState.norm (92 :: 117 :: (hex4 c ++ E)) =
                        strRun (.hex 3 0) (hex4 c ++ E) from rfl,
                      strRun_hex4 c hbmp]
                    by_cases hhi : 55296 ≤ c ∧ c ≤ 56319
                    · rw [if_pos hhi]
                      exact h2 hhi.1 hhi.2
                    · rw [if_neg hhi, h1]
                      rfl
                  · rw [escChar_astral c (by omega),
                      show (92 :: 117 :: hex4 (55296 + (c - 65536) / 1024) ++
                          92 :: 117 :: hex4 (56320 + (c - 65536) % 1024)) ++ E =
                        92 :: 117 :: (hex4 (55296 + (c - 65536) / 1024) ++
                          (92 :: 117 :: (hex4 (56320 + (c - 65536) % 1024) ++ E)))
                        from by simp,
                      strRun_uu _ _ ⟨by omega, by omega⟩ ⟨by omega, by omega⟩ E,
                      show 65536 + (55296 + (c - 65536) / 1024 - 55296) * 1024 +
                        (56320 + (c - 65536) % 1024 - 56320) = c from by omega, h1]
                    rfl

/-- One-character step of the escape round trip from a pending-high state:
the pending surrogate is emitted before the character (no low-surrogate escape
follows, so no pair combination occurs). -/
theorem escStep_hi : ∀ u c, c < 1114112 → ¬(56320 ≤ c ∧ c ≤ 57343) →
    ∀ E s2 rest,
    strRun .norm E = some (s2, rest) →
    (55296 ≤ c → c ≤ 56319 → strRun (.hi c) E = some (c :: s2, rest)) →
    strRun (.hi u) (escChar c ++ E) = some (u :: c :: s2, rest) := by
  intro u c hc hnl E s2 rest h1 h2
  by_cases h34 : c = 34
  · subst h34
    rw [show escChar 34 ++ E = 92 :: 34 :: E from rfl,
      show strRun (SState.hi u) (92 :: 34 :: E) =
        (strRun .norm E).map (fun p => (u :: 34 :: p.1, p.2)) from rfl, h1]
    rfl
  · by_cases h92 : c = 92
    · subst h92
      rw [show escChar 92 ++ E = 92 :: 92 :: E from rfl,
        show strRun (SState.hi u) (92 :: 92 :: E) =
          (strRun .norm E).map (fun p => (u :: 92 :: p.1, p.2)) from rfl, h1]
      rfl
    · by_cases h8 : c = 8
      · subst h8
        rw [show escChar 8 ++ E = 92 :: 98 :: E from rfl,
          show strRun (SState.hi u) (92 :: 98 :: E) =
            (strRun .norm E).map (fun p => (u :: 8 :: p.1, p.2)) from rfl, h1]
        rfl
      · by_cases h9 : c = 9
        · subst h9
          rw [show escChar 9 ++ E = 92 :: 116 :: E from rfl,
            show strRun (SState.hi u) (92 :: 116 :: E) =
              (strRun .norm E).map (fun p => (u :: 9 :: p.1, p.2)) from rfl, h1]
          rfl
        · by_cases h10 : c = 10
          · subst h10
            rw [show escChar 10 ++ E = 92 :: 110 :: E from rfl,
              show strRun (SState.hi u) (92 :: 110 :: E) =
                (strRun .norm E).map (fun p => (u :: 10 :: p.1, p.2)) from rfl, h1]
            rfl
          · by_cases h12 : c = 12
            · subst h12
              rw [show escChar 12 ++ E = 92 :: 102 :: E from rfl,
                show strRun (SState.hi u) (92 :: 102 :: E) =
                  (strRun .norm E).map (fun p => (u :: 12 :: p.1, p.2)) from rfl, h1]
              rfl
            · by_cases h13 : c = 13
              · subst h13
                rw [show escChar 13 ++ E = 92 :: 114 :: E from rfl,
                  show strRun (SState.hi u) (92 :: 114 :: E) =
                    (strRun .norm E).map (fun p => (u :: 13 :: p.1, p.2)) from rfl, h1]
                rfl
              · by_cases hraw : 32 ≤ c ∧ c ≤ 126
                · rw [escChar_raw c hraw.1 hraw.2 h34 h92,
                    show ([c] ++ E) = c :: E from rfl]
                  simp only [strRun]
                  rw [if_neg h92, if_neg h34, if_neg (by omega), h1]
                  rfl
                · by_cases hbmp : c < 65536
                  · rw [escChar_u c (by omega),
                      show (92 :: 117 :: hex4 c) ++ E = 92 :: 117 :: (hex4 c ++ E)
                        from rfl,
                      show strRun (SState.hi u) (92 :: 117 :: (hex4 c ++ E)) =
                        strRun (.hiHex u 3 0) (hex4 c ++ E) from rfl,
                      strRun_hiHex4 u c hbmp, if_neg hnl]
                    by_cases hhi : 55296 ≤ c ∧ c ≤ 56319
                    · rw [if_pos hhi, h2 hhi.1 hhi.2]
                      rfl
                    · rw [if_neg hhi, h1]
                      rfl
                  · rw [escChar_astral c (by omega),
                      show (92 :: 117 :: hex4 (55296 + (c - 65536) / 1024) ++
                          92 :: 117 :: hex4 (56320 + (c - 65536) % 1024)) ++ E =
                        92 :: 117 :: (hex4 (55296 + (c - 65536) / 1024) ++
                          (92 :: 117 :: (hex4 (56320 + (c - 65536) % 1024) ++ E)))
                        from by simp,
                      strRun_uu_hi u _ _ ⟨by omega, by omega⟩ ⟨by omega, by omega⟩ E,
                      show 65536 + (55296 + (c - 65536) / 1024 - 55296) * 1024 +
                        (56320 + (c - 65536) % 1024 - 56320) = c from by omega, h1]
                    rfl

/-- The string scanner inverts `ensure_ascii` escaping: scanning the
escaped body followed by the closing quote recovers the string, both from
the plain state and with a pending high surrogate (which Python may pair
with a following low-surrogate escape — excluded by `pairFreeStr`). -/
theorem strRT (n : Nat) : ∀ s rest, s.length ≤ n → (∀ c ∈ s, c < 1114112) →
    pairFreeStr s = true →
    (strRun .norm (escStr s ++ 34 :: rest) = some (s, rest)) ∧
    (∀ u, 55296 ≤ u → u ≤ 56319 → lowFreeHead s →
      strRun (.hi u) (escStr s ++ 34 :: rest) = some (u :: s, rest)) := by
  induction n with
  | zero =>
    intro s rest hlen _ _
    have hs : s = [] := List.length_eq_zero.mp (Nat.le_zero.mp hlen)
    subst hs
    exact ⟨rfl, fun u _ _ _ => rfl⟩
  | succ m ih =>
    intro s rest hlen hch hpf
    cases s with
    | nil => exact ⟨rfl, fun u _ _ _ => rfl⟩
    | cons c s2 =>
      have hc := hch c (List.mem_cons_self c s2)
      have IH := ih s2 rest (by simpa using hlen)
        (fun x hx => hch x (List.mem_cons_of_mem _ hx)) (pairFreeStr_tail c s2 hpf)
      have hsplit : escStr (c :: s2) ++ 34 :: rest =
          escChar c ++ (escStr s2 ++ 34 :: rest) := by
        show (escChar c ++ escStr s2) ++ 34 :: rest = _
        rw [List.append_assoc]
      rw [hsplit]
      have h2 : 55296 ≤ c → c ≤ 56319 →
          strRun (.hi c) (escStr s2 ++ 34 :: rest) = some (c :: s2, rest) :=
        fun hh1 hh2 => IH.2 c hh1 hh2 (pairFreeStr_head c s2 hpf hh1 hh2)
      refine ⟨escStep_norm c hc _ s2 rest IH.1 h2, fun u hu1 hu2 hlf => ?_⟩
      have hnl : ¬(56320 ≤ c ∧ c ≤ 57343) := hlf
      exact escStep_hi u c hc hnl _ s2 rest IH.1 h2

/-! ## Parser soundness: every `loads` output is well-formed -/

/-- All characters are Unicode code points. -/
def chOk (l : List Nat) : Prop := ∀ c ∈ l, c < 1114112

/-- Hex digits decode below 16. -/
theorem hexDigVal_lt (c d : Nat) (h : hexDigVal c = some d) : d < 16 := by
  unfold hexDigVal at h
  split_ifs at h <;> first
    | (injection h with h4; omega)
    | cases h

/-- Short escapes decode to ASCII. -/
theorem escCharOf_lt (e x : Nat) (h : escCharOf e = some x) : x < 128 := by
  unfold escCharOf at h
  split_ifs at h <;> first
    | (injection h with h4; omega)
    | cases h

/-- Reachability invariant of the scanner states: pending surrogates are
high surrogates and hex accumulators stay below their digit budget. -/
def sInv : SState → Prop
  | .norm => True
  | .esc => True
  | .hex k acc =>
      (k = 3 ∧ acc = 0) ∨ (k = 2 ∧ acc < 16) ∨ (k = 1 ∧ acc < 256) ∨
        (k = 0 ∧ acc < 4096)
  | .hi u => 55296 ≤ u ∧ u ≤ 56319
  | .hiEsc u => 55296 ≤ u ∧ u ≤ 56319
  | .hiHex u k acc => (55296 ≤ u ∧ u ≤ 56319) ∧
      ((k = 3 ∧ acc = 0) ∨ (k = 2 ∧ acc < 16) ∨ (k = 1 ∧ acc < 256) ∨
        (k = 0 ∧ acc < 4096))

/-- Scanner step bounds, plain state. -/
theorem chOk_step_norm (c : Nat) (cs : List Nat)
    (ih : ∀ st s r, sInv st → strRun st cs = some (s, r) → chOk cs → chOk s ∧ chOk r)
    (s r : List Nat) (h : strRun .norm (c :: cs) = some (s, r))
    (hc : c < 1114112) (hcs : chOk cs) : chOk s ∧ chOk r := by
  simp only [strRun] at h
  by_cases h34 : c = 34
  · rw [if_pos h34] at h
    injection h with h1
    injection h1 with hs hr
    subst hs
    subst hr
    exact ⟨fun x hx => absurd hx (List.not_mem_nil x), hcs⟩
  · rw [if_neg h34] at h
    by_cases h92 : c = 92
    · rw [if_pos h92] at h
      exact ih .esc s r trivial h hcs
    · rw [if_neg h92] at h
      by_cases h32 : c < 32
      · rw [if_pos h32] at h
        cases h
      · rw [if_neg h32] at h
        cases hin : strRun SState.norm cs with
        | none =>
          rw [hin] at h
          cases h
        | some p =>
          rcases p with ⟨s1, r1⟩
          rw [hin, Option.map_some'] at h
          injection h with h1
          injection h1 with hs hr
          subst hs
          subst hr
          obtain ⟨ha, hb⟩ := ih .norm s1 r1 trivial hin hcs
          refine ⟨fun x hx => ?_, hb⟩
          rcases List.mem_cons.mp hx with heq | hx2
          · omega
          · exact ha x hx2

/-- Scanner step bounds, after a backslash. -/
theorem chOk_step_esc (c : Nat) (cs : List Nat)
    (ih : ∀ st s r, sInv st → strRun st cs = some (s, r) → chOk cs → chOk s ∧ chOk r)
    (s r : List Nat) (h : strRun .esc (c :: cs) = some (s, r))
    (hcs : chOk cs) : chOk s ∧ chOk r := by
  simp only [strRun] at h
  by_cases h117 : c = 117
  · rw [if_pos h117] at h
    exact ih (.hex 3 0) s r (Or.inl ⟨rfl, rfl⟩) h hcs
  · rw [if_neg h117] at h
    cases hec : escCharOf c with
    | none =>
      simp only [hec] at h
      cases h
    | some ec =>
      simp only [hec] at h
      cases hin : strRun SState.norm cs with
      | none =>
        rw [hin] at h
        cases h
      | some p =>
        rcases p with ⟨s1, r1⟩
        rw [hin, Option.map_some'] at h
        injection h with h1
        injection h1 with hs hr
        subst hs
        subst hr
        obtain ⟨ha, hb⟩ := ih .norm s1 r1 trivial hin hcs
        refine ⟨fun x hx => ?_, hb⟩
        rcases List.mem_cons.mp hx with heq | hx2
        · have hecb := escCharOf_lt c ec hec
          omega
        · exact ha x hx2

/-- Scanner step bounds, inside `\u` hex digits. -/
theorem chOk_step_hex (c : Nat) (cs : List Nat)
    (ih : ∀ st s r, sInv st → strRun st cs = some (s, r) → chOk cs → chOk s ∧ chOk r)
    (k acc : Nat) (s r : List Nat) (hst : sInv (.hex k acc))
    (h : strRun (.hex k acc) (c :: cs) = some (s, r))
    (hcs : chOk cs) : chOk s ∧ chOk r := by
  simp only [strRun] at h
  cases hd : hexDigVal c with
  | none =>
    simp only [hd] at h
    cases h
  | some d =>
    simp only [hd] at h
    have hd16 : d < 16 := hexDigVal_lt c d hd
    simp only [sInv] at hst
    cases k with
    | succ m =>
      refine ih (.hex m (acc * 16 + d)) s r ?_ h hcs
      simp only [sInv]
      omega
    | zero =>
      by_cases hh : 55296 ≤ acc * 16 + d ∧ acc * 16 + d ≤ 56319
      · rw [if_pos hh] at h
        exact ih (.hi (acc * 16 + d)) s r hh h hcs
      · rw [if_neg hh] at h
        cases hin : strRun SState.norm cs with
        | none =>
          rw [hin] at h
          cases h
        | some p =>
          rcases p with ⟨s1, r1⟩
          rw [hin, Option.map_some'] at h
          injection h with h1
          injection h1 with hs hr
          subst hs
          subst hr
          obtain ⟨ha, hb⟩ := ih .norm s1 r1 trivial hin hcs
          refine ⟨fun x hx => ?_, hb⟩
          rcases List.mem_cons.mp hx with heq | hx2
          · omega
          · exact ha x hx2

/-- Scanner step bounds, pending high surrogate. -/
theorem chOk_step_hi (c : Nat) (cs : List Nat)
    (ih : ∀ st s r, sInv st → strRun st cs = some (s, r) → chOk cs → chOk s ∧ chOk r)
    (u : Nat) (s r : List Nat) (hst : sInv (.hi u))
    (h : strRun (.hi u) (c :: cs) = some (s, r))
    (hc : c < 1114112) (hcs : chOk cs) : chOk s ∧ chOk r := by
  simp only [strRun] at h
  simp only [sInv] at hst
  by_cases h92 : c = 92
  · rw [if_pos h92] at h
    exact ih (.hiEsc u) s r hst h hcs
  · rw [if_neg h92] at h
    by_cases h34 : c = 34
    · rw [if_pos h34] at h
      injection h with h1
      injection h1 with hs hr
      subst hs
      subst hr
      refine ⟨fun x hx => ?_, hcs⟩
      rcases List.mem_cons.mp hx with heq | hx2
      · omega
      · exact absurd hx2 (List.not_mem_nil x)
    · rw [if_neg h34] at h
      by_cases h32 : c < 32
      · rw [if_pos h32] at h
        cases h
      · rw [if_neg h32] at h
        cases hin : strRun SState.norm cs with
        | none =>
          rw [hin] at h
          cases h
        | some p =>
          rcases p with ⟨s1, r1⟩
          rw [hin, Option.map_some'] at h
          injection h with h1
          injection h1 with hs hr
          subst hs
          subst hr
          obtain ⟨ha, hb⟩ := ih .norm s1 r1 trivial hin hcs
          refine ⟨fun x hx => ?_, hb⟩
          rcases List.mem_cons.mp hx with heq | hx2
          · omega
          · rcases List.mem_cons.mp hx2 with heq2 | hx3
            · omega
            · exact ha x hx3

/-- Scanner step bounds, backslash after a pending high surrogate. -/
theorem chOk_step_hiEsc (c : Nat) (cs : List Nat)
    (ih : ∀ st s r, sInv st → strRun st cs = some (s, r) → chOk cs → chOk s ∧ chOk r)
    (u : Nat) (s r : List Nat) (hst : sInv (.hiEsc u))
    (h : strRun (.hiEsc u) (c :: cs) = some (s, r))
    (hcs : chOk cs) : chOk s ∧ chOk r := by
  simp only [strRun] at h
  simp only [sInv] at hst
  by_cases h117 : c = 117
  · rw [if_pos h117] at h
    exact ih (.hiHex u 3 0) s r ⟨hst, Or.inl ⟨rfl, rfl⟩⟩ h hcs
  · rw [if_neg h117] at h
    cases hec : escCharOf c with
    | none =>
      simp only [hec] at h
      cases h
    | some ec =>
      simp only [hec] at h
      cases hin : strRun SState.norm cs with
      | none =>
        rw [hin] at h
        cases h
      | some p =>
        rcases p with ⟨s1, r1⟩
        rw [hin, Option.map_some'] at h
        injection h with h1
        injection h1 with hs hr
        subst hs
        subst hr
        obtain ⟨ha, hb⟩ := ih .norm s1 r1 trivial hin hcs
        refine ⟨fun x hx => ?_, hb⟩
        rcases List.mem_cons.mp hx with heq | hx2
        · omega
        · rcases List.mem_cons.mp hx2 with heq2 | hx3
          · have hecb := escCharOf_lt c ec hec
            omega
          · exact ha x hx3

/-- Scanner step bounds, hex digits of a second `\u`. -/
theorem chOk_step_hiHex (c : Nat) (cs : List Nat)
    (ih : ∀ st s r, sInv st → strRun st cs = some (s, r) → chOk cs → chOk s ∧ chOk r)
    (u k acc : Nat) (s r : List Nat) (hst : sInv (.hiHex u k acc))
    (h : strRun (.hiHex u k acc) (c :: cs) = some (s, r))
    (hcs : chOk cs) : chOk s ∧ chOk r := by
  simp only [strRun] at h
  simp only [sInv] at hst
  cases hd : hexDigVal c with
  | none =>
    simp only [hd] at h
    cases h
  | some d =>
    simp only [hd] at h
    have hd16 : d < 16 := hexDigVal_lt c d hd
    cases k with
    | succ m =>
      refine ih (.hiHex u m (acc * 16 + d)) s r ?_ h hcs
      simp only [sInv]
      omega
    | zero =>
      by_cases hlo : 56320 ≤ acc * 16 + d ∧ acc * 16 + d ≤ 57343
      · rw [if_pos hlo] at h
        cases hin : strRun SState.norm cs with
        | none =>
          rw [hin] at h
          cases h
        | some p =>
          rcases p with ⟨s1, r1⟩
          rw [hin, Option.map_some'] at h
          injection h with h1
          injection h1 with hs hr
          subst hs
          subst hr
          obtain ⟨ha, hb⟩ := ih .norm s1 r1 trivial hin hcs
          refine ⟨fun x hx => ?_, hb⟩
          rcases List.mem_cons.mp hx with heq | hx2
          · omega
          · exact ha x hx2
      · rw [if_neg hlo] at h
        by_cases hh : 55296 ≤ acc * 16 + d ∧ acc * 16 + d ≤ 56319
        · rw [if_pos hh] at h
          cases hin : strRun (SState.hi (acc * 16 + d)) cs with
          | none =>
            rw [hin] at h
            cases h
          | some p =>
            rcases p with ⟨s1, r1⟩
            rw [hin, Option.map_some'] at h
            injection h with h1
            injection h1 with hs hr
            subst hs
            subst hr
            obtain ⟨ha, hb⟩ := ih (.hi (acc * 16 + d)) s1 r1 hh hin hcs
            refine ⟨fun x hx => ?_, hb⟩
            rcases List.mem_cons.mp hx with heq | hx2
            · omega
            · exact ha x hx2
        · rw [if_neg hh] at h
          cases hin : strRun SState.norm cs with
          | none =>
            rw [hin] at h
            cases h
          | some p =>
            rcases p with ⟨s1, r1⟩
            rw [hin, Option.map_some'] at h
            injection h with h1
            injection h1 with hs hr
            subst hs
            subst hr
            obtain ⟨ha, hb⟩ := ih .norm s1 r1 trivial hin hcs
            refine ⟨fun x hx => ?_, hb⟩
            rcases List.mem_cons.mp hx with heq | hx2
            · omega
            · rcases List.mem_cons.mp hx2 with heq2 | hx3
              · omega
              · exact ha x hx3

/-- The scanner only emits Unicode code points and leaves a suffix of its
input: escapes yield ASCII or BMP units, and surrogate-pair combination
stays below `0x110000`. -/
theorem strRun_chOk : ∀ l st s r, sInv st → strRun st l = some (s, r) →
    chOk l → chOk s ∧ chOk r := by
  intro l
  induction l with
  | nil =>
    intro st s r _ h _
    cases h
  | cons c cs ih =>
    intro st s r hst h hch
    have hc : c < 1114112 := hch c (List.mem_cons_self c cs)
    have hcs : chOk cs := fun x hx => hch x (List.mem_cons_of_mem _ hx)
    cases st with
    | norm => exact chOk_step_norm c cs ih s r h hc hcs
    | esc => exact chOk_step_esc c cs ih s r h hcs
    | hex k acc => exact chOk_step_hex c cs ih k acc s r hst h hcs
    | hi u => exact chOk_step_hi c cs ih u s r hst h hc hcs
    | hiEsc u => exact chOk_step_hiEsc c cs ih u s r hst h hcs
    | hiHex u k acc => exact chOk_step_hiHex c cs ih u k acc s r hst h hcs

/-- Characters survive `litMatch`. -/
theorem chOk_litMatch (pat l r : List Nat) (h : litMatch pat l = some r)
    (hch : chOk l) : chOk r := by
  unfold litMatch at h
  split_ifs at h
  injection h with h1
  subst h1
  exact fun c hc => hch c (List.drop_subset _ _ hc)

/-- Characters survive the numeral parser. -/
theorem chOk_parseNumber (l lit r : List Nat) (h : parseNumber l = some (lit, r))
    (hch : chOk l) : chOk r := by
  obtain ⟨-, hl⟩ := parseNumber_sound l lit r h
  subst hl
  exact fun c hc => hch c (List.mem_append_right _ hc)

/-- Freshness distributes over member-list concatenation. -/
theorem fresh_append (k : List Nat) : ∀ a b : JObj,
    JObj.fresh k (JObj.append a b) = (JObj.fresh k a && JObj.fresh k b)
  | .nil, b => by
    show JObj.fresh k b = (true && JObj.fresh k b)
    rw [Bool.true_and]
  | .cons k2 v2 t, b => by
    show (decide (k ≠ k2) && JObj.fresh k (JObj.append t b)) = _
    rw [fresh_append k t b]
    show _ = ((decide (k ≠ k2) && JObj.fresh k t) && JObj.fresh k b)
    rw [Bool.and_assoc]

/-- Inserting an absent key appends it at the end. -/
theorem insert_fresh (k : List Nat) (v : Json) : ∀ o : JObj,
    JObj.fresh k o = true → JObj.insert k v o = JObj.append o (.cons k v .nil)
  | .nil, _ => rfl
  | .cons k2 v2 t, h => by
    have hh : decide (k ≠ k2) = true ∧ JObj.fresh k t = true :=
      Bool.and_eq_true_iff.mp h
    have h1 : k ≠ k2 := of_decide_eq_true hh.1
    show JObj.insert k v (.cons k2 v2 t) =
      .cons k2 v2 (JObj.append t (.cons k v .nil))
    rw [JObj.insert, if_neg h1, insert_fresh k v t hh.2]

/-- Member-list concatenation is associative. -/
theorem append_assocO : ∀ a b c : JObj,
    JObj.append (JObj.append a b) c = JObj.append a (JObj.append b c)
  | .nil, _, _ => rfl
  | .cons k v t, b, c => by
    show JObj.cons k v (JObj.append (JObj.append t b) c) = _
    rw [append_assocO t b c]
    rfl

/-- A different absent key stays absent after a dict assignment. -/
theorem fresh_insert (k2 k : List Nat) (v : Json) (hne : k2 ≠ k) : ∀ t : JObj,
    JObj.fresh k2 t = true → JObj.fresh k2 (JObj.insert k v t) = true
  | .nil, _ => by
    show (decide (k2 ≠ k) && true) = true
    simp [hne]
  | .cons k3 v3 t, h => by
    have hh : decide (k2 ≠ k3) = true ∧ JObj.fresh k2 t = true :=
      Bool.and_eq_true_iff.mp h
    rw [JObj.insert]
    by_cases he : k = k3
    · rw [if_pos he]
      show (decide (k2 ≠ k3) && JObj.fresh k2 t) = true
      exact Bool.and_eq_true_iff.mpr ⟨hh.1, hh.2⟩
    · rw [if_neg he]
      show (decide (k2 ≠ k3) && JObj.fresh k2 (JObj.insert k v t)) = true
      exact Bool.and_eq_true_iff.mpr ⟨hh.1, fresh_insert k2 k v hne t hh.2⟩

/-- Dict assignment preserves the object invariant. -/
theorem wfO_insert (k : List Nat) (v : Json) (hk : ∀ c ∈ k, c < 1114112)
    (hv : wfJ v) : ∀ o : JObj, wfO o → wfO (JObj.insert k v o)
  | .nil, _ => ⟨hk, rfl, hv, trivial⟩
  | .cons k2 v2 t, ho => by
    obtain ⟨hk2, hf2, hv2, ht⟩ := ho
    rw [JObj.insert]
    by_cases he : k = k2
    · rw [if_pos he]
      exact ⟨hk2, hf2, hv, ht⟩
    · rw [if_neg he]
      exact ⟨hk2, fresh_insert k2 k v (fun hcon => he hcon.symm) t hf2,
        hv2, wfO_insert k v hk hv t ht⟩

/-- One step of value parsing yields a well-formed value and a valid
remainder. -/
theorem wf_step_val (m : Nat)
    (ihA : ∀ l xs r, parseArrItems m l = some (xs, r) → chOk l → wfL xs ∧ chOk r)
    (ihO : ∀ acc l o r, parseObjItems m acc l = some (o, r) → chOk l →
      wfO acc → wfO o ∧ chOk r) :
    ∀ l v r, parseVal (m + 1) l = some (v, r) → chOk l → wfJ v ∧ chOk r := by
  intro l v r h hch
  cases l with
  | nil =>
    rw [show parseVal (m + 1) ([] : List Nat) = none from rfl] at h
    cases h
  | cons c cs =>
    have hcs : chOk cs := fun x hx => hch x (List.mem_cons_of_mem _ hx)
    simp only [parseVal] at h
    by_cases h34 : c = 34
    · rw [if_pos h34] at h
      cases hsr : strRun SState.norm cs with
      | none =>
        simp only [hsr] at h
        cases h
      | some p =>
        rcases p with ⟨s1, r1⟩
        rw [hsr, Option.map_some'] at h
        injection h with h1
        injection h1 with hv hr
        subst hv
        subst hr
        obtain ⟨ha, hb⟩ := strRun_chOk cs .norm s1 r1 trivial hsr hcs
        exact ⟨ha, hb⟩
    · rw [if_neg h34] at h
      by_cases h123 : c = 123
      · rw [if_pos h123] at h
        have hsk : chOk (skipWs cs) := fun x hx => chOk_skipWs cs hcs x hx
        cases he : skipWs cs with
        | nil =>
          simp only [he] at h
          cases h
        | cons c2 r2 =>
          simp only [he] at h
          have hr2 : chOk r2 := by
            rw [he] at hsk
            exact fun x hx => hsk x (List.mem_cons_of_mem _ hx)
          by_cases h125 : c2 = 125
          · rw [if_pos h125] at h
            injection h with h1
            injection h1 with hv hr
            subst hv
            subst hr
            exact ⟨trivial, hr2⟩
          · rw [if_neg h125] at h
            cases hpo : parseObjItems m JObj.nil (c2 :: r2) with
            | none =>
              rw [hpo] at h
              cases h
            | some p =>
              rcases p with ⟨o1, r1⟩
              rw [hpo, Option.map_some'] at h
              injection h with h1
              injection h1 with hv hr
              subst hv
              subst hr
              have hcc : chOk (c2 :: r2) := by
                rw [he] at hsk
                exact hsk
              exact ihO JObj.nil (c2 :: r2) o1 r1 hpo hcc trivial
      · rw [if_neg h123] at h
        by_cases h91 : c = 91
        · rw [if_pos h91] at h
          have hsk : chOk (skipWs cs) := fun x hx => chOk_skipWs cs hcs x hx
          cases he : skipWs cs with
          | nil =>
            simp only [he] at h
            cases h
          | cons c2 r2 =>
            simp only [he] at h
            have hr2 : chOk r2 := by
              rw [he] at hsk
              exact fun x hx => hsk x (List.mem_cons_of_mem _ hx)
            by_cases h93 : c2 = 93
            · rw [if_pos h93] at h
              injection h with h1
              injection h1 with hv hr
              subst hv
              subst hr
              exact ⟨trivial, hr2⟩
            · rw [if_neg h93] at h
              cases hpa : parseArrItems m (c2 :: r2) with
              | none =>
                rw [hpa] at h
                cases h
              | some p =>
                rcases p with ⟨xs1, r1⟩
                rw [hpa, Option.map_some'] at h
                injection h with h1
                injection h1 with hv hr
                subst hv
                subst hr
                have hcc : chOk (c2 :: r2) := by
                  rw [he] at hsk
                  exact hsk
                exact ihA (c2 :: r2) xs1 r1 hpa hcc
        · rw [if_neg h91] at h
          by_cases h110 : c = 110
          · rw [if_pos h110] at h
            cases hlm : litMatch (s2n "ull") cs with
            | none =>
              rw [hlm] at h
              cases h
            | some r1 =>
              rw [hlm] at h
              injection h with h1
              injection h1 with hv hr
              subst hv
              subst hr
              exact ⟨trivial, chOk_litMatch _ cs r1 hlm hcs⟩
          · rw [if_neg h110] at h
            by_cases h116 : c = 116
            · rw [if_pos h116] at h
              cases hlm : litMatch (s2n "rue") cs with
              | none =>
                rw [hlm] at h
                cases h
              | some r1 =>
                rw [hlm] at h
                injection h with h1
                injection h1 with hv hr
                subst hv
                subst hr
                exact ⟨trivial, chOk_litMatch _ cs r1 hlm hcs⟩
            · rw [if_neg h116] at h
              by_cases h102 : c = 102
              · rw [if_pos h102] at h
                cases hlm : litMatch (s2n "alse") cs with
                | none =>
                  rw [hlm] at h
                  cases h
                | some r1 =>
                  rw [hlm] at h
                  injection h with h1
                  injection h1 with hv hr
                  subst hv
                  subst hr
                  exact ⟨trivial, chOk_litMatch _ cs r1 hlm hcs⟩
              · rw [if_neg h102] at h
                by_cases h78 : c = 78
                · rw [if_pos h78] at h
                  cases hlm : litMatch (s2n "aN") cs with
                  | none =>
                    rw [hlm] at h
                    cases h
                  | some r1 =>
                    rw [hlm] at h
                    injection h with h1
                    injection h1 with hv hr
                    subst hv
                    subst hr
                    exact ⟨trivial, chOk_litMatch _ cs r1 hlm hcs⟩
                · rw [if_neg h78] at h
                  by_cases h73 : c = 73
                  · rw [if_pos h73] at h
                    cases hlm : litMatch (s2n "nfinity") cs with
                    | none =>
                      rw [hlm] at h
                      cases h
                    | some r1 =>
                      rw [hlm] at h
                      injection h with h1
                      injection h1 with hv hr
                      subst hv
                      subst hr
                      exact ⟨trivial, chOk_litMatch _ cs r1 hlm hcs⟩
                  · rw [if_neg h73] at h
                    by_cases h45 : c = 45
                    · rw [if_pos h45] at h
                      cases hlm : litMatch (s2n "Infinity") cs with
                      | some r1 =>
                        rw [hlm] at h
                        injection h with h1
                        injection h1 with hv hr
                        subst hv
                        subst hr
                        exact ⟨trivial, chOk_litMatch _ cs r1 hlm hcs⟩
                      | none =>
                        rw [hlm] at h
                        cases hpn : parseNumber (c :: cs) with
                        | none =>
                          rw [hpn] at h
                          cases h
                        | some p =>
                          rcases p with ⟨lit, r1⟩
                          rw [hpn, Option.map_some'] at h
                          injection h with h1
                          injection h1 with hv hr
                          subst hv
                          subst hr
                          exact ⟨(parseNumber_sound _ _ _ hpn).1,
                            chOk_parseNumber _ _ _ hpn hch⟩
                    · rw [if_neg h45] at h
                      by_cases hd : 48 ≤ c ∧ c ≤ 57
                      · rw [if_pos hd] at h
                        cases hpn : parseNumber (c :: cs) with
                        | none =>
                          rw [hpn] at h
                          cases h
                        | some p =>
                          rcases p with ⟨lit, r1⟩
                          rw [hpn, Option.map_some'] at h
                          injection h with h1
                          injection h1 with hv hr
                          subst hv
                          subst hr
                          exact ⟨(parseNumber_sound _ _ _ hpn).1,
                            chOk_parseNumber _ _ _ hpn hch⟩
                      · rw [if_neg hd] at h
                        cases h

/-- One step of array-items parsing preserves the invariants. -/
theorem wf_step_arr (m : Nat)
    (ihV : ∀ l v r, parseVal m l = some (v, r) → chOk l → wfJ v ∧ chOk r)
    (ihA : ∀ l xs r, parseArrItems m l = some (xs, r) → chOk l → wfL xs ∧ chOk r) :
    ∀ l xs r, parseArrItems (m + 1) l = some (xs, r) → chOk l →
      wfL xs ∧ chOk r := by
  intro l xs r h hch
  simp only [parseArrItems] at h
  cases hpv : parseVal m l with
  | none =>
    simp only [hpv] at h
    cases h
  | some p =>
    rcases p with ⟨v1, r1⟩
    simp only [hpv] at h
    obtain ⟨hv1, hr1⟩ := ihV l v1 r1 hpv hch
    have hsk : chOk (skipWs r1) := fun x hx => chOk_skipWs r1 hr1 x hx
    cases he : skipWs r1 with
    | nil =>
      simp only [he] at h
      cases h
    | cons c2 r2 =>
      simp only [he] at h
      have hr2 : chOk r2 := by
        rw [he] at hsk
        exact fun x hx => hsk x (List.mem_cons_of_mem _ hx)
      by_cases h44 : c2 = 44
      · rw [if_pos h44] at h
        cases hpa : parseArrItems m (skipWs r2) with
        | none =>
          rw [hpa] at h
          cases h
        | some p2 =>
          rcases p2 with ⟨xs1, r3⟩
          rw [hpa, Option.map_some'] at h
          injection h with h1
          injection h1 with hxs hr
          subst hxs
          subst hr
          obtain ⟨ha, hb⟩ := ihA (skipWs r2) xs1 r3 hpa
            (fun x hx => chOk_skipWs r2 hr2 x hx)
          exact ⟨⟨hv1, ha⟩, hb⟩
      · rw [if_neg h44] at h
        by_cases h93 : c2 = 93
        · rw [if_pos h93] at h
          injection h with h1
          injection h1 with hxs hr
          subst hxs
          subst hr
          exact ⟨⟨hv1, trivial⟩, hr2⟩
        · rw [if_neg h93] at h
          cases h

/-- One step of object-members parsing preserves the invariants. -/
theorem wf_step_obj (m : Nat)
    (ihV : ∀ l v r, parseVal m l = some (v, r) → chOk l → wfJ v ∧ chOk r)
    (ihO : ∀ acc l o r, parseObjItems m acc l = some (o, r) → chOk l →
      wfO acc → wfO o ∧ chOk r) :
    ∀ acc l o r, parseObjItems (m + 1) acc l = some (o, r) → chOk l →
      wfO acc → wfO o ∧ chOk r := by
  intro acc l o r h hch hacc
  cases l with
  | nil =>
    rw [show parseObjItems (m + 1) acc ([] : List Nat) = none from rfl] at h
    cases h
  | cons c cs =>
    have hcs : chOk cs := fun x hx => hch x (List.mem_cons_of_mem _ hx)
    simp only [parseObjItems] at h
    by_cases h34 : c = 34
    · rw [if_pos h34] at h
      cases hsr : strRun SState.norm cs with
      | none =>
        simp only [hsr] at h
        cases h
      | some p =>
        rcases p with ⟨k1, r2⟩
        simp only [hsr] at h
        obtain ⟨hk1, hr2⟩ := strRun_chOk cs .norm k1 r2 trivial hsr hcs
        have hsk2 : chOk (skipWs r2) := fun x hx => chOk_skipWs r2 hr2 x hx
        cases he : skipWs r2 with
        | nil =>
          simp only [he] at h
          cases h
        | cons c3 r3 =>
          simp only [he] at h
          have hr3 : chOk r3 := by
            rw [he] at hsk2
            exact fun x hx => hsk2 x (List.mem_cons_of_mem _ hx)
          by_cases h58 : c3 = 58
          · rw [if_pos h58] at h
            cases hpv : parseVal m (skipWs r3) with
            | none =>
              simp only [hpv] at h
              cases h
            | some p2 =>
              rcases p2 with ⟨v1, r4⟩
              simp only [hpv] at h
              obtain ⟨hv1, hr4⟩ := ihV (skipWs r3) v1 r4 hpv
                (fun x hx => chOk_skipWs r3 hr3 x hx)
              have hsk4 : chOk (skipWs r4) := fun x hx => chOk_skipWs r4 hr4 x hx
              cases he4 : skipWs r4 with
              | nil =>
                simp only [he4] at h
                cases h
              | cons c4 r5 =>
                simp only [he4] at h
                have hr5 : chOk r5 := by
                  rw [he4] at hsk4
                  exact fun x hx => hsk4 x (List.mem_cons_of_mem _ hx)
                by_cases h44 : c4 = 44
                · rw [if_pos h44] at h
                  exact ihO (JObj.insert k1 v1 acc) (skipWs r5) o r h
                    (fun x hx => chOk_skipWs r5 hr5 x hx)
                    (wfO_insert k1 v1 hk1 hv1 acc hacc)
                · rw [if_neg h44] at h
                  by_cases h125 : c4 = 125
                  · rw [if_pos h125] at h
                    injection h with h1
                    injection h1 with ho hr
                    subst ho
                    subst hr
                    exact ⟨wfO_insert k1 v1 hk1 hv1 acc hacc, hr5⟩
                  · rw [if_neg h125] at h
                    cases h
          · rw [if_neg h58] at h
            cases h
    · rw [if_neg h34] at h
      cases h

/-- All parser outputs are well-formed with valid remainders, at every
fuel. -/
theorem parse_wf : ∀ n : Nat,
    (∀ l v r, parseVal n l = some (v, r) → chOk l → wfJ v ∧ chOk r) ∧
    (∀ l xs r, parseArrItems n l = some (xs, r) → chOk l → wfL xs ∧ chOk r) ∧
    (∀ acc l o r, parseObjItems n acc l = some (o, r) → chOk l → wfO acc →
      wfO o ∧ chOk r) := by
  intro n
  induction n with
  | zero =>
    refine ⟨fun l v r h => ?_, fun l xs r h => ?_, fun acc l o r h => ?_⟩
    · rw [show parseVal 0 l = none from rfl] at h
      cases h
    · rw [show parseArrItems 0 l = none from rfl] at h
      cases h
    · rw [show parseObjItems 0 acc l = none from rfl] at h
      cases h
  | succ m ih =>
    obtain ⟨ihV, ihA, ihO⟩ := ih
    exact ⟨wf_step_val m ihA ihO, wf_step_arr m ihV ihA, wf_step_obj m ihV ihO⟩

/-- `json.loads` only returns well-formed values. -/
theorem loads_wf (T : List Nat) (v : Json) (h : loads T = some v)
    (hch : chOk T) : wfJ v := by
  unfold loads at h
  cases hpv : parseVal (2 * T.length + 2) (skipWs T) with
  | none =>
    simp only [hpv] at h
    cases h
  | some p =>
    rcases p with ⟨v1, rest⟩
    simp only [hpv] at h
    by_cases he : (skipWs rest).isEmpty
    · rw [if_pos he] at h
      injection h with h1
      subst h1
      exact ((parse_wf _).1 _ _ _ hpv (fun c hc => chOk_skipWs T hch c hc)).1
    · rw [if_neg he] at h
      cases h

/-! ## Round trip: parsing a serialization returns the value -/

/-- Every value costs at least one unit of fuel. -/
theorem jfuel_pos (v : Json) : 1 ≤ jfuel v := by
  cases v <;> simp only [jfuel] <;> omega

/-- A word cannot match when the heads differ. -/
theorem litMatch_head_ne (p : Nat) (ps : List Nat) (c : Nat) (cs : List Nat)
    (h : ¬p = c) : litMatch (p :: ps) (c :: cs) = none := by
  unfold litMatch
  rw [if_neg]
  intro hlw
  have : (p == c && leadsWith ps cs) = true := hlw
  rcases Bool.and_eq_true_iff.mp this with ⟨h1, -⟩
  exact h (by simpa using h1)

/-- `litMatch` succeeds on its own pattern. -/
theorem leadsWith_self : ∀ pat l : List Nat, leadsWith pat (pat ++ l) = true
  | [], _ => rfl
  | p :: ps, l => by
    show (p == p && leadsWith ps (ps ++ l)) = true
    rw [leadsWith_self ps l]
    simp

/-- `litMatch` consumes exactly its pattern. -/
theorem litMatch_pref (pat l : List Nat) : litMatch pat (pat ++ l) = some l := by
  unfold litMatch
  rw [if_pos (leadsWith_self pat l), List.drop_left]

/-- The serialization of a well-formed value starts with a non-whitespace
character that closes no container and separates no items. -/
theorem dumps_head_ne (d : Nat) (v : Json) (hwf : wfJ v) :
    ∃ c r, dumpsAt d v = c :: r ∧ ¬(c = 32 ∨ c = 9 ∨ c = 10 ∨ c = 13) ∧
      c ≠ 93 ∧ c ≠ 125 := by
  cases v with
  | null => refine ⟨110, _, rfl, ?_, ?_, ?_⟩ <;> decide
  | bool b =>
    cases b
    · refine ⟨102, _, rfl, ?_, ?_, ?_⟩ <;> decide
    · refine ⟨116, _, rfl, ?_, ?_, ?_⟩ <;> decide
  | nan => refine ⟨78, _, rfl, ?_, ?_, ?_⟩ <;> decide
  | inf => refine ⟨73, _, rfl, ?_, ?_, ?_⟩ <;> decide
  | ninf => refine ⟨45, _, rfl, ?_, ?_, ?_⟩ <;> decide
  | str s => refine ⟨34, _, rfl, ?_, ?_, ?_⟩ <;> decide
  | num lit =>
    rcases hwf with ⟨sgn, ip, fr, ex, rfl, hsgn, hip, -, -⟩
    rcases hsgn with rfl | rfl
    · rcases hip with rfl | ⟨c, dd, rfl, hc1, hc2, -⟩
      · refine ⟨48, _, rfl, ?_, ?_, ?_⟩ <;> decide
      · exact ⟨c, _, rfl, by omega, by omega, by omega⟩
    · refine ⟨45, _, rfl, ?_, ?_, ?_⟩ <;> decide
  | arr l =>
    cases l with
    | nil => refine ⟨91, _, rfl, ?_, ?_, ?_⟩ <;> decide
    | cons x xs => refine ⟨91, _, rfl, ?_, ?_, ?_⟩ <;> decide
  | obj o =>
    cases o with
    | nil => refine ⟨123, _, rfl, ?_, ?_, ?_⟩ <;> decide
    | cons k v t => refine ⟨123, _, rfl, ?_, ?_, ?_⟩ <;> decide

/-- Whitespace skipping stops at a serialized value. -/
theorem skipWs_dumps (d : Nat) (v : Json) (hwf : wfJ v) (T : List Nat) :
    skipWs (dumpsAt d v ++ T) = dumpsAt d v ++ T := by
  obtain ⟨c, r, hcr, hnw⟩ := dumps_head d v hwf
  rw [hcr, List.cons_append, skipWs_cons_not c _ hnw]

/-- The text following an array item inside a serialization: the separator
and next item, or the closing line (`dc` spaces and `]`), then `rest`. -/
def itemsTail (d dc : Nat) : JList → List Nat → List Nat
  | .nil, rest => 10 :: (sp dc ++ (93 :: rest))
  | .cons y ys, rest =>
      44 :: 10 :: (sp (2 * d) ++ (dumpsAt d y ++ itemsTail d dc ys rest))

/-- The text following an object value inside a serialization. -/
def kvsTail (d dc : Nat) : JObj → List Nat → List Nat
  | .nil, rest => 10 :: (sp dc ++ (125 :: rest))
  | .cons k v t, rest =>
      44 :: 10 :: (sp (2 * d) ++
        (34 :: (escStr k ++ (34 :: 58 :: 32 :: (dumpsAt d v ++ kvsTail d dc t rest)))))

/-- Item continuations start with a newline or a comma. -/
theorem itemsTail_stopOk (d dc : Nat) (xs : JList) (rest : List Nat) :
    stopOk (itemsTail d dc xs rest) = true := by
  cases xs <;> rfl

/-- Member continuations start with a newline or a comma. -/
theorem kvsTail_stopOk (d dc : Nat) (t : JObj) (rest : List Nat) :
    stopOk (kvsTail d dc t rest) = true := by
  cases t <;> rfl

/-- The serialized items of a non-empty array, the closing line and a
continuation, regrouped around the first item. -/
theorem dumpItems_split : ∀ (xs : JList) (d dc : Nat) (x : Json) (rest : List Nat),
    (dumpItems d (.cons x xs) ++ (10 :: sp dc)) ++ 93 :: rest =
      10 :: (sp (2 * d) ++ (dumpsAt d x ++ itemsTail d dc xs rest))
  | .nil, d, dc, x, rest => by
    show ((10 :: sp (2 * d) ++ dumpsAt d x ++ []) ++ (10 :: sp dc)) ++ 93 :: rest = _
    simp [itemsTail]
  | .cons y ys, d, dc, x, rest => by
    show ((10 :: sp (2 * d) ++ dumpsAt d x ++
        (44 :: dumpItems d (.cons y ys))) ++ (10 :: sp dc)) ++ 93 :: rest = _
    have ih : dumpItems d (.cons y ys) ++ (10 :: (sp dc ++ 93 :: rest)) =
        10 :: (sp (2 * d) ++ (dumpsAt d y ++ itemsTail d dc ys rest)) := by
      have := dumpItems_split ys d dc y rest
      simpa [List.append_assoc] using this
    show _ = 10 :: (sp (2 * d) ++ (dumpsAt d x ++
      (44 :: 10 :: (sp (2 * d) ++ (dumpsAt d y ++ itemsTail d dc ys rest)))))
    simp only [List.append_assoc, List.cons_append, List.nil_append]
    rw [← ih]

/-- The serialized members of a non-empty object, regrouped around the
first member. -/
theorem dumpKVs_split : ∀ (t : JObj) (d dc : Nat) (k : List Nat) (v : Json)
    (rest : List Nat),
    (dumpKVs d (.cons k v t) ++ (10 :: sp dc)) ++ 125 :: rest =
      10 :: (sp (2 * d) ++
        (34 :: (escStr k ++ (34 :: 58 :: 32 :: (dumpsAt d v ++ kvsTail d dc t rest)))))
  | .nil, d, dc, k, v, rest => by
    show ((10 :: sp (2 * d) ++ 34 :: escStr k ++ 34 :: 58 :: 32 :: dumpsAt d v ++ [])
        ++ (10 :: sp dc)) ++ 125 :: rest = _
    simp [kvsTail]
  | .cons k2 v2 t2, d, dc, k, v, rest => by
    show ((10 :: sp (2 * d) ++ 34 :: escStr k ++ 34 :: 58 :: 32 :: dumpsAt d v ++
        (44 :: dumpKVs d (.cons k2 v2 t2))) ++ (10 :: sp dc)) ++ 125 :: rest = _
    have ih : dumpKVs d (.cons k2 v2 t2) ++ (10 :: (sp dc ++ 125 :: rest)) =
        10 :: (sp (2 * d) ++ (34 :: (escStr k2 ++
          (34 :: 58 :: 32 :: (dumpsAt d v2 ++ kvsTail d dc t2 rest))))) := by
      have := dumpKVs_split t2 d dc k2 v2 rest
      simpa [List.append_assoc] using this
    show _ = 10 :: (sp (2 * d) ++ (34 :: (escStr k ++ (34 :: 58 :: 32 ::
      (dumpsAt d v ++ (44 :: 10 :: (sp (2 * d) ++ (34 :: (escStr k2 ++
        (34 :: 58 :: 32 :: (dumpsAt d v2 ++ kvsTail d dc t2 rest)))))))))))
    simp only [List.append_assoc, List.cons_append, List.nil_append]
    rw [← ih]

/-- All keys of the members are absent from an accumulator. -/
def freshKeys : JObj → JObj → Prop
  | .nil, _ => True
  | .cons k _ t, acc => JObj.fresh k acc = true ∧ freshKeys t acc

/-- Any key is absent from the empty accumulator. -/
theorem freshKeys_nil : ∀ t : JObj, freshKeys t JObj.nil
  | .nil => trivial
  | .cons _ _ t => ⟨rfl, freshKeys_nil t⟩

/-- Assigning a key absent from both sides keeps the remaining keys
absent from the accumulator. -/
theorem freshKeys_insert (k : List Nat) (v : Json) : ∀ (t acc : JObj),
    JObj.fresh k t = true → JObj.fresh k acc = true → freshKeys t acc →
      freshKeys t (JObj.insert k v acc)
  | .nil, _, _, _, _ => trivial
  | .cons k2 v2 t2, acc, hkt, hka, hfk => by
    have hh : decide (k ≠ k2) = true ∧ JObj.fresh k t2 = true :=
      Bool.and_eq_true_iff.mp hkt
    have hne : k2 ≠ k := fun he => (of_decide_eq_true hh.1) he.symm
    exact ⟨fresh_insert k2 k v hne acc hfk.1,
      freshKeys_insert k v t2 acc hh.2 hka hfk.2⟩

/-- A serialized numeral re-parses as itself before a stop character. -/
theorem rt_num (m : Nat) (lit rest : List Nat) (h : numShape lit)
    (hstop : stopOk rest = true) :
    parseVal (m + 1) (lit ++ rest) = some (.num lit, rest) := by
  obtain ⟨sgn, ip, fr, ex, rfl, hsgn, hip, hfr, hex⟩ := h
  have hnum : numShape (sgn ++ ip ++ fr ++ ex) :=
    ⟨sgn, ip, fr, ex, rfl, hsgn, hip, hfr, hex⟩
  rcases hsgn with rfl | rfl
  · rcases hip with rfl | ⟨c, dd, rfl, hc1, hc2, hdd⟩
    · rw [show ([] ++ [48] ++ fr ++ ex) ++ rest = 48 :: ((fr ++ ex) ++ rest)
          from by simp]
      rw [show parseVal (m + 1) (48 :: ((fr ++ ex) ++ rest)) =
          (parseNumber (48 :: ((fr ++ ex) ++ rest))).map
            (fun p => (Json.num p.1, p.2)) from rfl]
      rw [show 48 :: ((fr ++ ex) ++ rest) = ([] ++ [48] ++ fr ++ ex) ++ rest
          from by simp,
        parseNumber_exact _ rest hnum hstop, Option.map_some']
    · rw [show ([] ++ (c :: dd) ++ fr ++ ex) ++ rest =
          c :: ((dd ++ fr ++ ex) ++ rest) from by simp]
      simp only [parseVal]
      have n34 : ¬c = 34 := by omega
      have n123 : ¬c = 123 := by omega
      have n91 : ¬c = 91 := by omega
      have n110 : ¬c = 110 := by omega
      have n116 : ¬c = 116 := by omega
      have n102 : ¬c = 102 := by omega
      have n78 : ¬c = 78 := by omega
      have n73 : ¬c = 73 := by omega
      have n45 : ¬c = 45 := by omega
      rw [if_neg n34, if_neg n123, if_neg n91, if_neg n110, if_neg n116,
        if_neg n102, if_neg n78, if_neg n73, if_neg n45, if_pos (by omega)]
      rw [show c :: ((dd ++ fr ++ ex) ++ rest) =
          ([] ++ (c :: dd) ++ fr ++ ex) ++ rest from by simp,
        parseNumber_exact _ rest hnum hstop, Option.map_some']
  · rw [show ([45] ++ ip ++ fr ++ ex) ++ rest =
        45 :: ((ip ++ fr ++ ex) ++ rest) from by simp]
    rw [show parseVal (m + 1) (45 :: ((ip ++ fr ++ ex) ++ rest)) =
        (match litMatch (s2n "Infinity") ((ip ++ fr ++ ex) ++ rest) with
         | some r2 => some (Json.ninf, r2)
         | none => (parseNumber (45 :: ((ip ++ fr ++ ex) ++ rest))).map
             fun p => (Json.num p.1, p.2)) from rfl]
    have hlm : litMatch (s2n "Infinity") ((ip ++ fr ++ ex) ++ rest) = none := by
      rcases hip with rfl | ⟨c, dd, rfl, hc1, hc2, hdd⟩
      · rw [show ([48] ++ fr ++ ex) ++ rest = 48 :: ((fr ++ ex) ++ rest)
            from by simp]
        exact litMatch_head_ne 73 _ 48 _ (by omega)
      · rw [show ((c :: dd) ++ fr ++ ex) ++ rest =
            c :: ((dd ++ fr ++ ex) ++ rest) from by simp]
        exact litMatch_head_ne 73 _ c _ (by omega)
    simp only [hlm]
    rw [show 45 :: ((ip ++ fr ++ ex) ++ rest) =
        ([45] ++ ip ++ fr ++ ex) ++ rest from by simp,
      parseNumber_exact _ rest hnum hstop, Option.map_some']

/-- A serialized string re-parses as itself. -/
theorem rt_str (m : Nat) (s rest : List Nat) (hch : ∀ c ∈ s, c < 1114112)
    (hpf : pairFreeStr s = true) :
    parseVal (m + 1) ((34 :: escStr s ++ [34]) ++ rest) = some (.str s, rest) := by
  rw [show (34 :: escStr s ++ [34]) ++ rest = 34 :: (escStr s ++ 34 :: rest)
      from by simp]
  rw [show parseVal (m + 1) (34 :: (escStr s ++ 34 :: rest)) =
      (strRun .norm (escStr s ++ 34 :: rest)).map
        (fun p => (Json.str p.1, p.2)) from rfl]
  rw [(strRT s.length s rest le_rfl hch hpf).1, Option.map_some']

/-- The value step of the serialization round trip. -/
theorem rt_step_val (m : Nat)
    (ihA : ∀ x xs d dc rest, jfuel x + jlf xs < m → wfJ x → wfL xs →
      surrFree x = true → surrFreeL xs = true → stopOk rest = true →
      parseArrItems m (dumpsAt d x ++ itemsTail d dc xs rest) =
        some (.cons x xs, rest))
    (ihO : ∀ k v t acc d dc rest, 1 + jfuel v + jof t ≤ m → wfO (.cons k v t) →
      surrFreeO (.cons k v t) = true → freshKeys (.cons k v t) acc →
      stopOk rest = true →
      parseObjItems m acc (34 :: (escStr k ++ (34 :: 58 :: 32 ::
        (dumpsAt d v ++ kvsTail d dc t rest)))) =
        some (JObj.append acc (.cons k v t), rest)) :
    ∀ v d rest, jfuel v ≤ m + 1 → wfJ v → surrFree v = true →
      stopOk rest = true →
      parseVal (m + 1) (dumpsAt d v ++ rest) = some (v, rest) := by
  intro v d rest hfu hwf hsf hstop
  cases v with
  | null => rfl
  | bool b => cases b <;> rfl
  | nan => rfl
  | inf => rfl
  | ninf => rfl
  | num lit => exact rt_num m lit rest hwf hstop
  | str s => exact rt_str m s rest hwf hsf
  | arr l =>
    cases l with
    | nil => rfl
    | cons x xs =>
      rw [show dumpsAt d (.arr (.cons x xs)) ++ rest =
          91 :: ((dumpItems (d + 1) (.cons x xs) ++ (10 :: sp (2 * d))) ++ 93 :: rest)
          from by
        show (91 :: dumpItems (d + 1) (.cons x xs) ++ 10 :: sp (2 * d) ++ [93]) ++
          rest = _
        simp]
      rw [dumpItems_split xs (d + 1) (2 * d) x rest]
      rw [show parseVal (m + 1)
          (91 :: (10 :: (sp (2 * (d + 1)) ++
            (dumpsAt (d + 1) x ++ itemsTail (d + 1) (2 * d) xs rest)))) =
          (match skipWs (10 :: (sp (2 * (d + 1)) ++
            (dumpsAt (d + 1) x ++ itemsTail (d + 1) (2 * d) xs rest))) with
           | [] => none
           | c2 :: r2 =>
             if c2 = 93 then some (Json.arr .nil, r2)
             else (parseArrItems m (c2 :: r2)).map fun p => (Json.arr p.1, p.2))
          from rfl]
      obtain ⟨hwx, hwxs⟩ : wfJ x ∧ wfL xs := hwf
      obtain ⟨hsx, hsxs⟩ : surrFree x = true ∧ surrFreeL xs = true :=
        Bool.and_eq_true_iff.mp hsf
      obtain ⟨c0, r0, hc0, hnw0, hne93, hne125⟩ := dumps_head_ne (d + 1) x hwx
      have hsk : skipWs (10 :: (sp (2 * (d + 1)) ++
          (dumpsAt (d + 1) x ++ itemsTail (d + 1) (2 * d) xs rest))) =
          c0 :: (r0 ++ itemsTail (d + 1) (2 * d) xs rest) := by
        rw [skipWs_cons_ws 10 _ (by omega), skipWs_sp, hc0, List.cons_append,
          skipWs_cons_not _ _ hnw0]
      simp only [hsk]
      rw [if_neg hne93]
      rw [show c0 :: (r0 ++ itemsTail (d + 1) (2 * d) xs rest) =
          dumpsAt (d + 1) x ++ itemsTail (d + 1) (2 * d) xs rest from by
        rw [hc0]
        simp]
      rw [ihA x xs (d + 1) (2 * d) rest (by
          have h1 : jfuel (Json.arr (.cons x xs)) = 2 + (1 + jfuel x + jlf xs) :=
            rfl
          omega) hwx hwxs hsx hsxs hstop, Option.map_some']
  | obj o =>
    cases o with
    | nil => rfl
    | cons k v t =>
      rw [show dumpsAt d (.obj (.cons k v t)) ++ rest =
          123 :: ((dumpKVs (d + 1) (.cons k v t) ++ (10 :: sp (2 * d))) ++
            125 :: rest) from by
        show (123 :: dumpKVs (d + 1) (.cons k v t) ++ 10 :: sp (2 * d) ++ [125]) ++
          rest = _
        simp]
      rw [dumpKVs_split t (d + 1) (2 * d) k v rest]
      rw [show parseVal (m + 1)
          (123 :: (10 :: (sp (2 * (d + 1)) ++
            (34 :: (escStr k ++ (34 :: 58 :: 32 ::
              (dumpsAt (d + 1) v ++ kvsTail (d + 1) (2 * d) t rest))))))) =
          (match skipWs (10 :: (sp (2 * (d + 1)) ++
            (34 :: (escStr k ++ (34 :: 58 :: 32 ::
              (dumpsAt (d + 1) v ++ kvsTail (d + 1) (2 * d) t rest)))))) with
           | [] => none
           | c2 :: r2 =>
             if c2 = 125 then some (Json.obj .nil, r2)
             else (parseObjItems m JObj.nil (c2 :: r2)).map
               fun p => (Json.obj p.1, p.2))
          from rfl]
      have hsk : skipWs (10 :: (sp (2 * (d + 1)) ++
          (34 :: (escStr k ++ (34 :: 58 :: 32 ::
            (dumpsAt (d + 1) v ++ kvsTail (d + 1) (2 * d) t rest)))))) =
          34 :: (escStr k ++ (34 :: 58 :: 32 ::
            (dumpsAt (d + 1) v ++ kvsTail (d + 1) (2 * d) t rest))) := by
        rw [skipWs_cons_ws 10 _ (by omega), skipWs_sp,
          skipWs_cons_not 34 _ (by decide)]
      simp only [hsk]
      rw [if_neg (by decide)]
      rw [ihO k v t JObj.nil (d + 1) (2 * d) rest (by
          have h1 : jfuel (Json.obj (.cons k v t)) = 2 + (1 + jfuel v + jof t) :=
            rfl
          omega) hwf hsf ⟨rfl, freshKeys_nil t⟩ hstop, Option.map_some']
      rfl

/-- The array-items step of the serialization round trip. -/
theorem rt_step_arr (m : Nat)
    (ihV : ∀ v d rest, jfuel v ≤ m → wfJ v → surrFree v = true →
      stopOk rest = true →
      parseVal m (dumpsAt d v ++ rest) = some (v, rest))
    (ihA : ∀ x xs d dc rest, jfuel x + jlf xs < m → wfJ x → wfL xs →
      surrFree x = true → surrFreeL xs = true → stopOk rest = true →
      parseArrItems m (dumpsAt d x ++ itemsTail d dc xs rest) =
        some (.cons x xs, rest)) :
    ∀ x xs d dc rest, jfuel x + jlf xs < m + 1 → wfJ x → wfL xs →
      surrFree x = true → surrFreeL xs = true → stopOk rest = true →
      parseArrItems (m + 1) (dumpsAt d x ++ itemsTail d dc xs rest) =
        some (.cons x xs, rest) := by
  intro x xs d dc rest hfu hwx hwxs hsx hsxs hstop
  simp only [parseArrItems]
  simp only [ihV x d (itemsTail d dc xs rest) (by omega) hwx hsx
    (itemsTail_stopOk d dc xs rest)]
  cases xs with
  | nil =>
    have hsk : skipWs (10 :: (sp dc ++ (93 :: rest))) = 93 :: rest := by
      rw [skipWs_cons_ws 10 _ (by omega), skipWs_sp,
        skipWs_cons_not 93 _ (by decide)]
    simp only [itemsTail, hsk]
    rfl
  | cons y ys =>
    obtain ⟨hwy, hwys⟩ : wfJ y ∧ wfL ys := hwxs
    obtain ⟨hsy, hsys⟩ : surrFree y = true ∧ surrFreeL ys = true :=
      Bool.and_eq_true_iff.mp hsxs
    have hsk : skipWs (44 :: 10 :: (sp (2 * d) ++
        (dumpsAt d y ++ itemsTail d dc ys rest))) =
        44 :: 10 :: (sp (2 * d) ++ (dumpsAt d y ++ itemsTail d dc ys rest)) :=
      skipWs_cons_not 44 _ (by decide)
    simp only [itemsTail, hsk]
    rw [if_pos (by trivial)]
    have hsk2 : skipWs (10 :: (sp (2 * d) ++
        (dumpsAt d y ++ itemsTail d dc ys rest))) =
        dumpsAt d y ++ itemsTail d dc ys rest := by
      rw [skipWs_cons_ws 10 _ (by omega), skipWs_sp, skipWs_dumps d y hwy]
    rw [hsk2]
    rw [ihA y ys d dc rest (by
        have h1 : jlf (JList.cons y ys) = 1 + jfuel y + jlf ys := rfl
        have h2 := jfuel_pos x
        omega) hwy hwys hsy hsys hstop, Option.map_some']

/-- The leading `"key": value` of a serialized object member parses down
to the dispatch on what follows the value. -/
theorem rt_obj_keyval (m : Nat) (k : List Nat) (v : Json) (acc : JObj)
    (d dc : Nat) (t : JObj) (rest : List Nat)
    (hkc : ∀ c ∈ k, c < 1114112) (hpk : pairFreeStr k = true) (hwv : wfJ v)
    (hpv : parseVal m (dumpsAt d v ++ kvsTail d dc t rest) =
      some (v, kvsTail d dc t rest)) :
    parseObjItems (m + 1) acc (34 :: (escStr k ++ (34 :: 58 :: 32 ::
      (dumpsAt d v ++ kvsTail d dc t rest)))) =
      (match skipWs (kvsTail d dc t rest) with
       | [] => none
       | c4 :: r5 =>
         if c4 = 44 then parseObjItems m (JObj.insert k v acc) (skipWs r5)
         else if c4 = 125 then some (JObj.insert k v acc, r5)
         else none) := by
  simp only [parseObjItems]
  rw [if_pos (by trivial)]
  have hstr := (strRT k.length k
    (58 :: 32 :: (dumpsAt d v ++ kvsTail d dc t rest)) le_rfl hkc hpk).1
  simp only [hstr]
  have hsk1 : skipWs (58 :: 32 :: (dumpsAt d v ++ kvsTail d dc t rest)) =
      58 :: 32 :: (dumpsAt d v ++ kvsTail d dc t rest) :=
    skipWs_cons_not 58 _ (by decide)
  simp only [hsk1]
  rw [if_pos (by trivial)]
  have hsk2 : skipWs (32 :: (dumpsAt d v ++ kvsTail d dc t rest)) =
      dumpsAt d v ++ kvsTail d dc t rest := by
    rw [skipWs_cons_ws 32 _ (by omega), skipWs_dumps d v hwv]
  simp only [hsk2]
  simp only [hpv]

/-- After the last member's value, the closing line ends the object with
the accumulated members. -/
theorem rt_obj_close (m : Nat) (k : List Nat) (v : Json) (acc : JObj)
    (d dc : Nat) (rest : List Nat) (hfka : JObj.fresh k acc = true) :
    (match skipWs (kvsTail d dc JObj.nil rest) with
     | [] => none
     | c4 :: r5 =>
       if c4 = 44 then parseObjItems m (JObj.insert k v acc) (skipWs r5)
       else if c4 = 125 then some (JObj.insert k v acc, r5)
       else none) =
      some (JObj.append acc (.cons k v JObj.nil), rest) := by
  have hsk3 : skipWs (kvsTail d dc JObj.nil rest) = 125 :: rest := by
    simp only [kvsTail]
    rw [skipWs_cons_ws 10 _ (by omega), skipWs_sp,
      skipWs_cons_not 125 _ (by decide)]
  simp only [hsk3]
  rw [if_neg (by decide), if_pos (by trivial), insert_fresh k v acc hfka]

/-- After a member's value, a comma hands the remaining members to the
recursive call with the member assigned into the accumulator. -/
theorem rt_obj_comma (m : Nat) (k : List Nat) (v : Json) (acc : JObj)
    (d dc : Nat) (k2 : List Nat) (v2 : Json) (t2 : JObj) (rest : List Nat)
    (hfka : JObj.fresh k acc = true)
    (hrec : parseObjItems m (JObj.insert k v acc) (34 :: (escStr k2 ++
      (34 :: 58 :: 32 :: (dumpsAt d v2 ++ kvsTail d dc t2 rest)))) =
      some (JObj.append (JObj.insert k v acc) (.cons k2 v2 t2), rest)) :
    (match skipWs (kvsTail d dc (.cons k2 v2 t2) rest) with
     | [] => none
     | c4 :: r5 =>
       if c4 = 44 then parseObjItems m (JObj.insert k v acc) (skipWs r5)
       else if c4 = 125 then some (JObj.insert k v acc, r5)
       else none) =
      some (JObj.append acc (.cons k v (.cons k2 v2 t2)), rest) := by
  simp only [kvsTail]
  have hsk3 : skipWs (44 :: 10 :: (sp (2 * d) ++ (34 :: (escStr k2 ++
      (34 :: 58 :: 32 :: (dumpsAt d v2 ++ kvsTail d dc t2 rest)))))) =
      44 :: 10 :: (sp (2 * d) ++ (34 :: (escStr k2 ++
        (34 :: 58 :: 32 :: (dumpsAt d v2 ++ kvsTail d dc t2 rest))))) :=
    skipWs_cons_not 44 _ (by decide)
  simp only [hsk3]
  rw [if_pos (by trivial)]
  have hsk4 : skipWs (10 :: (sp (2 * d) ++ (34 :: (escStr k2 ++
      (34 :: 58 :: 32 :: (dumpsAt d v2 ++ kvsTail d dc t2 rest)))))) =
      34 :: (escStr k2 ++
        (34 :: 58 :: 32 :: (dumpsAt d v2 ++ kvsTail d dc t2 rest))) := by
    rw [skipWs_cons_ws 10 _ (by omega), skipWs_sp,
      skipWs_cons_not 34 _ (by decide)]
  rw [hsk4, hrec, insert_fresh k v acc hfka, append_assocO]
  rfl

/-- The object-members step of the serialization round trip. -/
theorem rt_step_obj (m : Nat)
    (ihV : ∀ v d rest, jfuel v ≤ m → wfJ v → surrFree v = true →
      stopOk rest = true →
      parseVal m (dumpsAt d v ++ rest) = some (v, rest))
    (ihO : ∀ k v t acc d dc rest, 1 + jfuel v + jof t ≤ m → wfO (.cons k v t) →
      surrFreeO (.cons k v t) = true → freshKeys (.cons k v t) acc →
      stopOk rest = true →
      parseObjItems m acc (34 :: (escStr k ++ (34 :: 58 :: 32 ::
        (dumpsAt d v ++ kvsTail d dc t rest)))) =
        some (JObj.append acc (.cons k v t), rest)) :
    ∀ k v t acc d dc rest, 1 + jfuel v + jof t ≤ m + 1 → wfO (.cons k v t) →
      surrFreeO (.cons k v t) = true → freshKeys (.cons k v t) acc →
      stopOk rest = true →
      parseObjItems (m + 1) acc (34 :: (escStr k ++ (34 :: 58 :: 32 ::
        (dumpsAt d v ++ kvsTail d dc t rest)))) =
        some (JObj.append acc (.cons k v t), rest) := by
  intro k v t acc d dc rest hfu hwf hsf hfk hstop
  obtain ⟨hkc, hfkt, hwv, hwt⟩ := hwf
  obtain ⟨hfka, hfkr⟩ : JObj.fresh k acc = true ∧ freshKeys t acc := hfk
  have hsf2 : pairFreeStr k = true ∧ surrFree v = true ∧ surrFreeO t = true := by
    have h1 : (pairFreeStr k && surrFree v && surrFreeO t) = true := hsf
    rcases Bool.and_eq_true_iff.mp h1 with ⟨h2, h3⟩
    rcases Bool.and_eq_true_iff.mp h2 with ⟨h4, h5⟩
    exact ⟨h4, h5, h3⟩
  rw [rt_obj_keyval m k v acc d dc t rest hkc hsf2.1 hwv
    (ihV v d (kvsTail d dc t rest) (by omega) hwv hsf2.2.1
      (kvsTail_stopOk d dc t rest))]
  cases t with
  | nil => exact rt_obj_close m k v acc d dc rest hfka
  | cons k2 v2 t2 =>
    exact rt_obj_comma m k v acc d dc k2 v2 t2 rest hfka
      (ihO k2 v2 t2 (JObj.insert k v acc) d dc rest (by
          have h1 : jof (JObj.cons k2 v2 t2) = 1 + jfuel v2 + jof t2 := rfl
          have h2 := jfuel_pos v
          omega) hwt hsf2.2.2
        (freshKeys_insert k v (.cons k2 v2 t2) acc hfkt hfka hfkr) hstop)

/-- Parsing inverts serialization, at every sufficient fuel. -/
theorem dumpsRT : ∀ n : Nat,
    (∀ v d rest, jfuel v ≤ n → wfJ v → surrFree v = true → stopOk rest = true →
      parseVal n (dumpsAt d v ++ rest) = some (v, rest)) ∧
    (∀ x xs d dc rest, jfuel x + jlf xs < n → wfJ x → wfL xs →
      surrFree x = true → surrFreeL xs = true → stopOk rest = true →
      parseArrItems n (dumpsAt d x ++ itemsTail d dc xs rest) =
        some (.cons x xs, rest)) ∧
    (∀ k v t acc d dc rest, 1 + jfuel v + jof t ≤ n → wfO (.cons k v t) →
      surrFreeO (.cons k v t) = true → freshKeys (.cons k v t) acc →
      stopOk rest = true →
      parseObjItems n acc (34 :: (escStr k ++ (34 :: 58 :: 32 ::
        (dumpsAt d v ++ kvsTail d dc t rest)))) =
        some (JObj.append acc (.cons k v t), rest)) := by
  intro n
  induction n with
  | zero =>
    refine ⟨fun v d rest hfu _ _ _ => ?_, fun x xs d dc rest hfu _ _ _ _ _ => ?_,
      fun k v t acc d dc rest hfu _ _ _ _ => ?_⟩
    · have := jfuel_pos v
      omega
    · omega
    · omega
  | succ m ih =>
    exact ⟨rt_step_val m ih.2.1 ih.2.2, rt_step_arr m ih.1 ih.2.1,
      rt_step_obj m ih.1 ih.2.2⟩

mutual

/-- The fuel a value needs is within what `loads` supplies for its
serialization. -/
theorem jfuel_bound : ∀ (v : Json) (d : Nat),
    jfuel v ≤ 2 * (dumpsAt d v).length + 1
  | .null, d => by
    show (1 : Nat) ≤ 2 * (dumpsAt d .null).length + 1
    omega
  | .bool b, d => by
    show (1 : Nat) ≤ 2 * (dumpsAt d (.bool b)).length + 1
    omega
  | .num lit, d => by
    show (1 : Nat) ≤ 2 * (dumpsAt d (.num lit)).length + 1
    omega
  | .str s, d => by
    show (1 : Nat) ≤ 2 * (dumpsAt d (.str s)).length + 1
    omega
  | .nan, d => by
    show (1 : Nat) ≤ 2 * (dumpsAt d .nan).length + 1
    omega
  | .inf, d => by
    show (1 : Nat) ≤ 2 * (dumpsAt d .inf).length + 1
    omega
  | .ninf, d => by
    show (1 : Nat) ≤ 2 * (dumpsAt d .ninf).length + 1
    omega
  | .arr l, d => by
    cases l with
    | nil =>
      have h1 : jfuel (Json.arr .nil) = 2 := rfl
      have h2 : (dumpsAt d (Json.arr .nil)).length = 2 := rfl
      omega
    | cons x xs =>
      have h1 : jfuel (Json.arr (.cons x xs)) = 2 + jlf (.cons x xs) := rfl
      have h2 : dumpsAt d (.arr (.cons x xs)) =
          91 :: dumpItems (d + 1) (.cons x xs) ++ 10 :: sp (2 * d) ++ [93] := rfl
      have h3 := jlf_bound (.cons x xs) (d + 1)
      have h4 : (dumpsAt d (.arr (.cons x xs))).length =
          1 + (dumpItems (d + 1) (.cons x xs)).length + (1 + 2 * d) + 1 := by
        rw [h2]
        simp [sp, List.length_replicate]
        omega
      omega
  | .obj o, d => by
    cases o with
    | nil =>
      have h1 : jfuel (Json.obj .nil) = 2 := rfl
      have h2 : (dumpsAt d (Json.obj .nil)).length = 2 := rfl
      omega
    | cons k v t =>
      have h1 : jfuel (Json.obj (.cons k v t)) = 2 + jof (.cons k v t) := rfl
      have h2 : dumpsAt d (.obj (.cons k v t)) =
          123 :: dumpKVs (d + 1) (.cons k v t) ++ 10 :: sp (2 * d) ++ [125] := rfl
      have h3 := jof_bound (.cons k v t) (d + 1)
      have h4 : (dumpsAt d (.obj (.cons k v t))).length =
          1 + (dumpKVs (d + 1) (.cons k v t)).length + (1 + 2 * d) + 1 := by
        rw [h2]
        simp [sp, List.length_replicate]
        omega
      omega

/-- Fuel bound for serialized array items. -/
theorem jlf_bound : ∀ (l : JList) (d : Nat), jlf l ≤ 2 * (dumpItems d l).length
  | .nil, d => by
    show (0 : Nat) ≤ 2 * (dumpItems d .nil).length
    omega
  | .cons x xs, d => by
    have h1 : jlf (.cons x xs) = 1 + jfuel x + jlf xs := rfl
    have h3 := jfuel_bound x d
    cases xs with
    | nil =>
      have h2 : dumpItems d (.cons x .nil) =
          10 :: sp (2 * d) ++ dumpsAt d x ++ [] := rfl
      have h4 : (dumpItems d (.cons x .nil)).length =
          1 + 2 * d + (dumpsAt d x).length := by
        rw [h2]
        simp [sp, List.length_replicate]
        omega
      have h5 : jlf (JList.nil) = 0 := rfl
      omega
    | cons y ys =>
      have h2 : dumpItems d (.cons x (.cons y ys)) =
          10 :: sp (2 * d) ++ dumpsAt d x ++
            (44 :: dumpItems d (.cons y ys)) := rfl
      have h4 : (dumpItems d (.cons x (.cons y ys))).length =
          1 + 2 * d + (dumpsAt d x).length + 1 +
            (dumpItems d (.cons y ys)).length := by
        rw [h2]
        simp [sp, List.length_replicate]
        omega
      have h5 := jlf_bound (.cons y ys) d
      omega

/-- Fuel bound for serialized object members. -/
theorem jof_bound : ∀ (o : JObj) (d : Nat), jof o ≤ 2 * (dumpKVs d o).length
  | .nil, d => by
    show (0 : Nat) ≤ 2 * (dumpKVs d .nil).length
    omega
  | .cons k v t, d => by
    have h1 : jof (.cons k v t) = 1 + jfuel v + jof t := rfl
    have h3 := jfuel_bound v d
    cases t with
    | nil =>
      have h2 : dumpKVs d (.cons k v .nil) =
          10 :: sp (2 * d) ++ 34 :: escStr k ++ 34 :: 58 :: 32 ::
            dumpsAt d v ++ [] := rfl
      have h4 : (dumpKVs d (.cons k v .nil)).length =
          1 + 2 * d + 1 + (escStr k).length + 3 + (dumpsAt d v).length := by
        rw [h2]
        simp [sp, List.length_replicate]
        omega
      have h5 : jof (JObj.nil) = 0 := rfl
      omega
    | cons k2 v2 t2 =>
      have h2 : dumpKVs d (.cons k v (.cons k2 v2 t2)) =
          10 :: sp (2 * d) ++ 34 :: escStr k ++ 34 :: 58 :: 32 ::
            dumpsAt d v ++ (44 :: dumpKVs d (.cons k2 v2 t2)) := rfl
      have h4 : (dumpKVs d (.cons k v (.cons k2 v2 t2))).length =
          1 + 2 * d + 1 + (escStr k).length + 3 + (dumpsAt d v).length + 1 +
            (dumpKVs d (.cons k2 v2 t2)).length := by
        rw [h2]
        simp [sp, List.length_replicate]
        omega
      have h5 := jof_bound (.cons k2 v2 t2) d
      omega

end

/-- Serializing a parsed value and re-parsing returns it: the full
`json.loads (json.dumps v)` round trip on well-formed, surrogate-clean
values. -/
theorem loads_dumps (v : Json) (hwf : wfJ v) (hs : surrFree v = true) :
    loads (dumps v) = some v := by
  unfold loads
  have hsw : skipWs (dumps v) = dumpsAt 0 v ++ [] := by
    show skipWs (dumpsAt 0 v) = dumpsAt 0 v ++ []
    rw [show dumpsAt 0 v = dumpsAt 0 v ++ [] from (List.append_nil _).symm,
      skipWs_dumps 0 v hwf []]
    simp
  rw [hsw]
  have hfu : jfuel v ≤ 2 * (dumps v).length + 2 := by
    have := jfuel_bound v 0
    show jfuel v ≤ 2 * (dumpsAt 0 v).length + 2
    omega
  simp only [(dumpsRT (2 * (dumps v).length + 2)).1 v 0 [] hfu hwf hs rfl]
  rfl

/-! ## Python equality is reflexive on NaN-free parsed values -/

/-- Every member of the first dict is found in the second with the same
value. -/
def subKV : JObj → JObj → Prop
  | .nil, _ => True
  | .cons k x t, o => JObj.lookup k o = some x ∧ subKV t o

/-- Lookups are preserved under a fresh head. -/
theorem subKV_lift (k : List Nat) (x : Json) : ∀ (t o : JObj),
    JObj.fresh k t = true → subKV t o → subKV t (.cons k x o)
  | .nil, _, _, _ => trivial
  | .cons k2 x2 t2, o, hf, hs => by
    have hh : decide (k ≠ k2) = true ∧ JObj.fresh k t2 = true :=
      Bool.and_eq_true_iff.mp hf
    have hne : k2 ≠ k := fun he => (of_decide_eq_true hh.1) he.symm
    refine ⟨?_, subKV_lift k x t2 o hh.2 hs.2⟩
    show JObj.lookup k2 (.cons k x o) = some x2
    rw [JObj.lookup, if_neg hne]
    exact hs.1

/-- With unique keys, every member of a dict looks itself up. -/
theorem subKV_self : ∀ o : JObj, wfO o → subKV o o
  | .nil, _ => trivial
  | .cons k x t, ho => by
    obtain ⟨-, hf, -, ht⟩ := ho
    refine ⟨?_, subKV_lift k x t t hf (subKV_self t ht)⟩
    show JObj.lookup k (.cons k x t) = some x
    rw [JObj.lookup, if_pos rfl]

/-- Python `==` is reflexive on parsed values containing no `NaN`, at
every fuel. -/
theorem pyEq_refl_n : ∀ n : Nat,
    (∀ v, jfuel v ≤ n → noNaN v = true → wfJ v → pyEq v v = true) ∧
    (∀ l, jlf l ≤ n → noNaNL l = true → wfL l → pyEqL l l = true) ∧
    (∀ t o, jof t ≤ n → noNaNO t = true → wfO t → subKV t o →
      pyEqO t o = true) := by
  intro n
  induction n with
  | zero =>
    refine ⟨fun v hfu _ _ => ?_, fun l hfu _ _ => ?_, fun t o hfu _ _ _ => ?_⟩
    · have := jfuel_pos v
      omega
    · cases l with
      | nil => rfl
      | cons x xs =>
        have h1 : jlf (JList.cons x xs) = 1 + jfuel x + jlf xs := rfl
        have := jfuel_pos x
        omega
    · cases t with
      | nil => rfl
      | cons k x t2 =>
        have h1 : jof (JObj.cons k x t2) = 1 + jfuel x + jof t2 := rfl
        have := jfuel_pos x
        omega
  | succ m ih =>
    obtain ⟨ihJ, ihL, ihP⟩ := ih
    refine ⟨fun v hfu hn hw => ?_, fun l hfu hn hw => ?_,
      fun t o hfu hn hw hsub => ?_⟩
    · cases v with
      | null => rfl
      | bool b =>
        show (b == b) = true
        simp
      | nan => cases hn
      | inf => rfl
      | ninf => rfl
      | num lit =>
        show ((numVal lit).num * ((numVal lit).den : Int) ==
          (numVal lit).num * ((numVal lit).den : Int)) = true
        simp
      | str s =>
        show (s == s) = true
        simp
      | arr l =>
        show pyEqL l l = true
        refine ihL l ?_ hn hw
        have h1 : jfuel (Json.arr l) = 2 + jlf l := rfl
        omega
      | obj o =>
        show (JObj.length o == JObj.length o && pyEqO o o) = true
        rw [Bool.and_eq_true_iff]
        refine ⟨by simp, ihP o o ?_ hn hw (subKV_self o hw)⟩
        have h1 : jfuel (Json.obj o) = 2 + jof o := rfl
        omega
    · cases l with
      | nil => rfl
      | cons x xs =>
        obtain ⟨hwx, hwxs⟩ : wfJ x ∧ wfL xs := hw
        obtain ⟨hnx, hnxs⟩ : noNaN x = true ∧ noNaNL xs = true :=
          Bool.and_eq_true_iff.mp hn
        show (pyEq x x && pyEqL xs xs) = true
        rw [Bool.and_eq_true_iff]
        have h1 : jlf (JList.cons x xs) = 1 + jfuel x + jlf xs := rfl
        exact ⟨ihJ x (by omega) hnx hwx, ihL xs (by omega) hnxs hwxs⟩
    · cases t with
      | nil => rfl
      | cons k x t2 =>
        obtain ⟨hkc, hfk, hwx, hwt2⟩ := hw
        obtain ⟨hnx, hnt⟩ : noNaN x = true ∧ noNaNO t2 = true :=
          Bool.and_eq_true_iff.mp hn
        obtain ⟨hlk, hsub2⟩ := hsub
        show ((match JObj.lookup k o with
              | some y => pyEq x y
              | none => false) && pyEqO t2 o) = true
        rw [Bool.and_eq_true_iff]
        have h1 : jof (JObj.cons k x t2) = 1 + jfuel x + jof t2 := rfl
        refine ⟨?_, ihP t2 o (by omega) hnt hwt2 hsub2⟩
        simp only [hlk]
        exact ihJ x (by omega) hnx hwx

/-- Python `==` is reflexive on NaN-free well-formed values. -/
theorem pyEq_refl (v : Json) (hn : noNaN v = true) (hw : wfJ v) :
    pyEq v v = true :=
  (pyEq_refl_n (jfuel v)).1 v le_rfl hn hw

/-! ## Spec-side notions, for comparison with the code's behavior -/

/-- Follows the spec's words: concatenation of textual units in source
order with a newline separator between consecutive units. -/
def specJoin : List (List Nat) → List Nat
  | [] => []
  | [u] => u
  | u :: us => u ++ 10 :: specJoin us

mutual

/-- Follows the spec's words for the average-confidence statistic: every
numeric value reachable by recursively walking the entire value tree whose
immediate key name contains `"confidence"` case-insensitively — the walk
enters nested mappings, nested sequences, and also the values of
confidence-named keys themselves. -/
def specConfVals : Json → List Frac
  | .obj o => specConfValsObj o
  | .arr l => specConfValsList l
  | _ => []

/-- Mapping part of the spec-side confidence walk. -/
def specConfValsObj : JObj → List Frac
  | .nil => []
  | .cons k v t =>
      (if isConfKey k then
        match toFin v with
        | some q => [q]
        | none => []
      else []) ++ specConfVals v ++ specConfValsObj t

/-- Sequence part of the spec-side confidence walk. -/
def specConfValsList : JList → List Frac
  | .nil => []
  | .cons x t => specConfVals x ++ specConfValsList t

end

mutual

/-- Some value sitting under a confidence-named key, anywhere in the tree,
is not numeric (not an `int`, `float` or `bool`). -/
def specNonNumUnderConf : Json → Bool
  | .obj o => specNonNumUnderConfObj o
  | .arr l => specNonNumUnderConfList l
  | _ => false

/-- Mapping part of the non-numeric-confidence search. -/
def specNonNumUnderConfObj : JObj → Bool
  | .nil => false
  | .cons k v t =>
      (isConfKey k && (toNum v).isNone) || specNonNumUnderConf v ||
        specNonNumUnderConfObj t

/-- Sequence part of the non-numeric-confidence search. -/
def specNonNumUnderConfList : JList → Bool
  | .nil => false
  | .cons x t => specNonNumUnderConf x || specNonNumUnderConfList t

end

/-- Arithmetic mean of a list of rationals, the spec's statistic. -/
def meanQ (l : List ℚ) : ℚ := l.sum / (l.length : ℚ)

/-! ## Helper lemmas -/

/-- A substring of `t` is a substring of `s ++ t`. -/
theorem hasSub_append_right (pat s t : List Nat) (h : hasSub pat t = true) :
    hasSub pat (s ++ t) = true := by
  induction s with
  | nil => simpa using h
  | cons c cs ih => simp [hasSub, ih]

/-- The source's `"\n".join` agrees with the spec's newline-separated
concatenation. -/
theorem intercalate_eq_specJoin (l : List (List Nat)) :
    List.intercalate [10] l = specJoin l := by
  induction l with
  | nil => rfl
  | cons u us ih =>
    cases us with
    | nil => simp [List.intercalate, specJoin]
    | cons v vs =>
      rw [show specJoin (u :: v :: vs) = u ++ 10 :: specJoin (v :: vs) from rfl, ← ih]
      simp [List.intercalate, List.intersperse]

/-- Strict UTF-8 decoding inverts encoding on scalar values. -/
theorem utf8_roundtrip (s : List Nat)
    (hs : ∀ c ∈ s, c < 1114112 ∧ ¬(55296 ≤ c ∧ c ≤ 57343)) :
    utf8Decode (utf8Encode s) = some s := by
  unfold utf8Decode
  induction s with
  | nil => rfl
  | cons c cs ih =>
    obtain ⟨hlt, hsur⟩ := hs c (List.mem_cons_self c cs)
    have ih2 := ih fun x hx => hs x (List.mem_cons_of_mem _ hx)
    show utf8D none (utf8EncodeChar c ++ utf8Encode cs) = some (c :: cs)
    by_cases h1 : c < 128
    · have hb : utf8EncodeChar c = [c] := by rw [utf8EncodeChar, if_pos h1]
      rw [hb]
      simp only [List.cons_append, List.append_eq, List.nil_append, utf8D]
      rw [if_pos h1, ih2, Option.map_some']
    · by_cases h2 : c < 2048
      · have hb : utf8EncodeChar c = [192 + c / 64, 128 + c % 64] := by
          rw [utf8EncodeChar, if_neg h1, if_pos h2]
        rw [hb]
        simp only [List.cons_append, List.nil_append, utf8D]
        have u1 : ¬(192 + c / 64 < 128) := by omega
        have u2 : ¬(192 + c / 64 < 194) := by omega
        rw [if_neg u1, if_neg u2, if_pos (by omega)]
        rw [if_pos (by omega)]
        have e1 : 192 + c / 64 - 192 = c / 64 := by omega
        rw [e1]
        have hv : c / 64 * 64 + (128 + c % 64 - 128) = c := by omega
        simp only [hv]
        rw [if_pos (by omega), List.append_eq, List.nil_append, ih2, Option.map_some']
      · by_cases h3 : c < 65536
        · have hb : utf8EncodeChar c =
              [224 + c / 4096, 128 + c / 64 % 64, 128 + c % 64] := by
            rw [utf8EncodeChar, if_neg h1, if_neg h2, if_pos h3]
          rw [hb]
          simp only [List.cons_append, List.nil_append, utf8D]
          have u1 : ¬(224 + c / 4096 < 128) := by omega
          have u2 : ¬(224 + c / 4096 < 194) := by omega
          have u3 : ¬(224 + c / 4096 < 224) := by omega
          rw [if_neg u1, if_neg u2, if_neg u3, if_pos (by omega)]
          rw [if_pos (by omega)]
          have e1 : 224 + c / 4096 - 224 = c / 4096 := by omega
          rw [e1]
          have e2 : c / 4096 * 64 + (128 + c / 64 % 64 - 128) = c / 64 := by omega
          simp only [e2]
          rw [if_pos (by omega)]
          have hv : c / 64 * 64 + (128 + c % 64 - 128) = c := by omega
          simp only [hv]
          rw [if_pos (by omega), List.append_eq, List.nil_append, ih2, Option.map_some']
        · have hb : utf8EncodeChar c =
              [240 + c / 262144, 128 + c / 4096 % 64, 128 + c / 64 % 64,
                128 + c % 64] := by
            rw [utf8EncodeChar, if_neg h1, if_neg h2, if_neg h3]
          rw [hb]
          simp only [List.cons_append, List.nil_append, utf8D]
          have u1 : ¬(240 + c / 262144 < 128) := by omega
          have u2 : ¬(240 + c / 262144 < 194) := by omega
          have u3 : ¬(240 + c / 262144 < 224) := by omega
          have u4 : ¬(240 + c / 262144 < 240) := by omega
          rw [if_neg u1, if_neg u2, if_neg u3, if_neg u4, if_pos (by omega)]
          rw [if_pos (by omega)]
          have e1 : 240 + c / 262144 - 240 = c / 262144 := by omega
          rw [e1]
          have e2 : c / 262144 * 64 + (128 + c / 4096 % 64 - 128) = c / 4096 := by omega
          simp only [e2]
          rw [if_pos (by omega)]
          have e3 : c / 4096 * 64 + (128 + c / 64 % 64 - 128) = c / 64 := by omega
          simp only [e3]
          rw [if_pos (by omega)]
          have hv : c / 64 * 64 + (128 + c % 64 - 128) = c := by omega
          simp only [hv]
          rw [if_pos (by omega), List.append_eq, List.nil_append, ih2, Option.map_some']

/-- The display/statistics step never produces the raw-text fallback: that
outcome belongs to the `json.JSONDecodeError` handler alone. -/
theorem analyzeJson_ne_fallback (v : Json) (r : List Nat) :
    analyzeJson v ≠ .fallback r := by
  cases v with
  | obj o =>
    rw [analyzeJson]
    split
    · split
      · simp
      · split
        · simp
        · split <;> simp
    · simp
  | null => simp [analyzeJson]
  | bool b => simp [analyzeJson]
  | num lit => simp [analyzeJson]
  | str s => simp [analyzeJson]
  | nan => simp [analyzeJson]
  | inf => simp [analyzeJson]
  | ninf => simp [analyzeJson]
  | arr l => simp [analyzeJson]

/-- The parsed value has a mapping at top level. -/
def isObjB : Json → Bool
  | .obj _ => true
  | _ => false

/-! ## Claim theorems: the Result Interpreter boundary (C2, C5) -/

/-- C2 counterexample: the valid JSON array `[1, 2, 3]` does NOT yield a
StructuredResult — line 178 evaluates `json_data.keys()` on the list, the
`AttributeError` reaches the outer `except`, and the run ends in the
generic failed state. -/
theorem c2_counterexample : interpret (s2n "[1, 2, 3]") = .failed := by rfl

/-- C2 amended: a parse failure yields the raw-text fallback and a parsed
object whose confidence block raises nothing yields a StructuredResult,
but a completion that parses as valid JSON with a non-object top level
(array or scalar) ends the run in the Failed error state — and no
valid-JSON input ever yields the fallback outcome. -/
theorem c2_amended (raw : List Nat) (v : Json) (h : loads raw = some v)
    (hno : isObjB v = false) :
    interpret raw = .failed ∧ ∀ r, interpret raw ≠ .fallback r := by
  have he : interpret raw = analyzeJson v := by rw [interpret, h]
  constructor
  · rw [he]
    cases v <;> first
      | rfl
      | simp [isObjB] at hno
  · intro r
    rw [he]
    exact analyzeJson_ne_fallback v r

/-- C2 amended, witness: the valid JSON scalar `7` ends in the failed
state. -/
theorem c2_amended_witness : interpret (s2n "7") = .failed :=
  (c2_amended (s2n "7") (.num [55]) (by rfl) (by rfl)).1

/-- C5: every completion text rejected by the JSON parser produces the
raw-text fallback carrying the original text unmodified. -/
theorem c5_confirmed (raw : List Nat) (h : loads raw = none) :
    interpret raw = .fallback raw := by
  rw [interpret, h]

/-- The spec's own malformed-completion example: prose followed by a JSON
object. -/
def c5raw : List Nat :=
  s2n "Sure, here" ++ [39] ++ s2n "s your JSON: " ++ [123] ++ s2n "\"a\": 1" ++ [125]

/-- C5, witness at the literal `Sure, here's your JSON: {"a": 1}`. -/
theorem c5_confirmed_witness : interpret c5raw = .fallback c5raw :=
  c5_confirmed c5raw (by rfl)

/-! ## Claim theorems: the text extractor (C7) -/

/-- C7: for each supported content type, extraction succeeds and returns
the newline-joined visible textual units in source order — every PDF page
text, every Word paragraph text, and for plain text the UTF-8 decoding of
the bytes verbatim (shown as decode-of-encode on the character content). -/
theorem c7_confirmed (pages paras : List (List Nat)) (s : List Nat)
    (hs : ∀ c ∈ s, c < 1114112 ∧ ¬(55296 ≤ c ∧ c ≤ 57343)) :
    extract_text (.pdf (some pages)) = .text (specJoin pages) ∧
    extract_text (.docx (some paras)) = .text (specJoin paras) ∧
    extract_text (.plainText (utf8Encode s)) = .text s := by
  refine ⟨?_, ?_, ?_⟩
  · rw [extract_text, intercalate_eq_specJoin]
  · rw [extract_text, intercalate_eq_specJoin]
  · simp only [extract_text, utf8_roundtrip s hs]

/-- C7, witness: two PDF pages, two paragraphs, and a non-ASCII plain
text. -/
theorem c7_confirmed_witness :
    extract_text (.pdf (some [s2n "page one", s2n "page two"])) =
      .text (specJoin [s2n "page one", s2n "page two"]) ∧
    extract_text (.docx (some [s2n "alpha", s2n "beta"])) =
      .text (specJoin [s2n "alpha", s2n "beta"]) ∧
    extract_text (.plainText (utf8Encode (s2n "héllo €"))) =
      .text (s2n "héllo €") :=
  c7_confirmed [s2n "page one", s2n "page two"] [s2n "alpha", s2n "beta"]
    (s2n "héllo €") (by decide)

/-! ## Claim theorems: pipeline ordering and prompt (C3, C4, C6, C10) -/

/-- C3 counterexample: schema-guided mode with an empty schema is not
rejected — with a credential and pasted text present, the pipeline still
reaches the completion call, and the prompt was built around the empty
schema. -/
theorem c3_counterexample :
    runPipeline (s2n "k") none (s2n "doc") .schemaGuided [] =
      ⟨.completionCalled (buildPrompt .schemaGuided [] (s2n "doc")), false, true⟩ := by
  rfl

/-- C3 amended: when mode is schema-guided and the schema text is empty,
the request is NOT rejected — whenever the credential check and input
selection pass, the prompt is built with the empty schema embedded and the
completion client is invoked. -/
theorem c3_amended (key t : List Nat) (hk : key ≠ []) (ht : t ≠ []) :
    runPipeline key none t .schemaGuided [] =
      ⟨.completionCalled (buildPrompt .schemaGuided [] t), false, true⟩ := by
  rw [runPipeline, if_neg hk, if_neg ht]

/-- C3 amended, witness at a concrete credential and pasted text. -/
theorem c3_amended_witness :
    runPipeline (s2n "key") none (s2n "text") .schemaGuided [] =
      ⟨.completionCalled (buildPrompt .schemaGuided [] (s2n "text")), false, true⟩ :=
  c3_amended (s2n "key") (s2n "text") (by decide) (by decide)

/-- C4: with a missing/empty credential, the run ends at the
missing-credential stop; no extraction is performed and no completion call
occurs, whatever document, text, mode and schema are present. -/
theorem c4_confirmed (uploaded : Option FileData) (t : List Nat) (m : Mode)
    (st : List Nat) :
    runPipeline [] uploaded t m st = ⟨.missingCredential, false, false⟩ := by
  rfl

/-- C6: the schema-guided prompt embeds the schema string verbatim and
contains the per-field confidence-score instruction (scores in `(0-1)`
under a `"_confidence"` key) and the return-only-valid-JSON instruction. -/
theorem c6_confirmed (schema text : List Nat) (h : schema ≠ []) :
    (∃ a b, buildPrompt .schemaGuided schema text = a ++ (schema ++ b)) ∧
    hasSub (s2n "\"_confidence\" scores (0-1) for each field")
      (buildPrompt .schemaGuided schema text) = true ∧
    hasSub (s2n "Return ONLY valid JSON")
      (buildPrompt .schemaGuided schema text) = true := by
  refine ⟨⟨sgPre, sgMid ++ text ++ sgPost, by simp [buildPrompt]⟩, ?_, ?_⟩
  · rw [buildPrompt]
    repeat apply hasSub_append_right
    decide
  · rw [buildPrompt]
    repeat apply hasSub_append_right
    decide

/-- C6, witness at a concrete schema and text. -/
theorem c6_confirmed_witness :
    (∃ a b, buildPrompt .schemaGuided (s2n "s") [] = a ++ (s2n "s" ++ b)) ∧
    hasSub (s2n "\"_confidence\" scores (0-1) for each field")
      (buildPrompt .schemaGuided (s2n "s") []) = true ∧
    hasSub (s2n "Return ONLY valid JSON")
      (buildPrompt .schemaGuided (s2n "s") []) = true :=
  c6_confirmed (s2n "s") [] (by decide)

/-- C10: when extraction of an uploaded document yields the empty string,
the run halts silently (no error message, no result, no completion call);
and with any document uploaded the pasted text is never consulted — the
run is identical whatever the text area holds. -/
theorem c10_confirmed (key : List Nat) (f : FileData) (t1 t2 : List Nat)
    (m : Mode) (st : List Nat) (hk : key ≠ []) (he : extract_text f = .text []) :
    runPipeline key (some f) t1 m st = ⟨.silentHalt, true, false⟩ ∧
    (∀ g : FileData,
      runPipeline key (some g) t1 m st = runPipeline key (some g) t2 m st) := by
  constructor
  · simp [runPipeline, hk, he]
  · intro g
    cases hg : extract_text g <;> simp [runPipeline, hk, hg]

/-! ## Lemmas for the confidence statistics -/

/-- The denominator of a numeral's exact value is positive. -/
theorem numVal_den_pos (lit : List Nat) : 0 < (numVal lit).den := by
  unfold numVal
  rcases h : numParts lit with ⟨neg, ip, fr, ex⟩
  cases ex with
  | ofNat e => positivity
  | negSucc e => positivity

/-- Finite confidence values have positive denominators. -/
theorem toFin_den_pos (j : Json) (q : Frac) (h : toFin j = some q) : 0 < q.den := by
  cases j <;> simp only [toFin, toNum] at h
  · exact absurd h (by simp)
  · rename_i b
    rcases Option.some.injEq .. ▸ h with rfl
    cases b <;> simp
  · rename_i lit
    rcases Option.some.injEq .. ▸ h with rfl
    exact numVal_den_pos lit
  all_goals simp at h

/-- All values delivered by `collectFins` have positive denominators. -/
theorem collectFins_dens (cs : List Json) (qs : List Frac)
    (h : collectFins cs = some qs) : ∀ q ∈ qs, 0 < q.den := by
  induction cs generalizing qs with
  | nil =>
    rw [collectFins] at h
    rcases Option.some.injEq .. ▸ h with rfl
    simp
  | cons j js ih =>
    rw [collectFins] at h
    cases hj : toFin j with
    | none => rw [hj] at h; simp at h
    | some q =>
      rw [hj] at h
      cases hjs : collectFins js with
      | none => rw [hjs] at h; simp at h
      | some qs2 =>
        rw [hjs] at h
        rcases Option.some.injEq .. ▸ h with rfl
        intro x hx
        rcases List.mem_cons.mp hx with rfl | hx2
        · exact toFin_den_pos j x hj
        · exact ih qs2 hjs x hx2

/-- `collectFins` preserves length. -/
theorem collectFins_length (cs : List Json) (qs : List Frac)
    (h : collectFins cs = some qs) : qs.length = cs.length := by
  induction cs generalizing qs with
  | nil =>
    rw [collectFins] at h
    rcases Option.some.injEq .. ▸ h with rfl
    rfl
  | cons j js ih =>
    rw [collectFins] at h
    cases hj : toFin j with
    | none => rw [hj] at h; simp at h
    | some q =>
      rw [hj] at h
      cases hjs : collectFins js with
      | none => rw [hjs] at h; simp at h
      | some qs2 =>
        rw [hjs] at h
        rcases Option.some.injEq .. ▸ h with rfl
        simp [ih qs2 hjs]

/-- One non-numeric element makes the whole collection fail (Python's
`sum` raises `TypeError`). -/
theorem collectFins_none_of_any (cs : List Json)
    (h : (cs.any fun j => (toFin j).isNone) = true) : collectFins cs = none := by
  induction cs with
  | nil => simp at h
  | cons j js ih =>
    rw [collectFins]
    have h2 : toFin j = none ∨ ∃ x ∈ js, toFin x = none := by simpa using h
    rcases h2 with hj | hjs
    · rw [hj]
    · have hb : (js.any fun x => (toFin x).isNone) = true := by simpa using hjs
      rw [ih hb]
      cases toFin j <;> rfl

/-- A dict passing the top-level confidence gate yields a non-empty
collection: the gating key's own value is collected. -/
theorem confGate_fc_ne : ∀ o : JObj, confGate o = true → findConfObj o ≠ []
  | .nil => fun h => by simp [confGate, JObj.anyKey] at h
  | .cons k v t => fun h => by
    rw [findConfObj]
    rcases Bool.or_eq_true_iff.mp (by simpa [confGate, JObj.anyKey] using h) with hk | ht
    · simp [hk]
    · intro hc
      rcases List.append_eq_nil.mp hc with ⟨-, h2⟩
      exact confGate_fc_ne t (by simp [confGate, ht]) h2

/-- Value of an exact fraction addition. -/
theorem Frac.add_val (f g : Frac) (hf : 0 < f.den) (hg : 0 < g.den) :
    (f.add g).val = f.val + g.val := by
  have hf2 : ((f.den : ℚ)) ≠ 0 := by positivity
  have hg2 : ((g.den : ℚ)) ≠ 0 := by positivity
  simp only [Frac.add, Frac.val]
  push_cast
  field_simp

/-- Folding exact addition over positive-denominator fractions sums their
values and keeps the denominator positive. -/
theorem foldl_add_spec (l : List Frac) :
    ∀ acc : Frac, 0 < acc.den → (∀ q ∈ l, 0 < q.den) →
      0 < (l.foldl Frac.add acc).den ∧
        (l.foldl Frac.add acc).val = acc.val + (l.map Frac.val).sum := by
  induction l with
  | nil => intro acc hacc h; simpa using hacc
  | cons q l ih =>
    intro acc hacc h
    have hq : 0 < q.den := h q (List.mem_cons_self q l)
    have hstep : 0 < (acc.add q).den := by
      simp only [Frac.add]
      exact Nat.mul_pos hacc hq
    have hrest := ih (acc.add q) hstep fun x hx => h x (List.mem_cons_of_mem _ hx)
    refine ⟨hrest.1, ?_⟩
    rw [List.foldl_cons, hrest.2, Frac.add_val acc q hacc hq]
    simp [add_assoc]

/-- The exact sum of collected confidence values. -/
theorem sumFracs_spec (l : List Frac) (h : ∀ q ∈ l, 0 < q.den) :
    0 < (sumFracs l).den ∧ (sumFracs l).val = (l.map Frac.val).sum := by
  have := foldl_add_spec l ⟨0, 1⟩ (by norm_num) h
  rw [sumFracs]
  simpa [Frac.val] using this

/-! ## Claim theorems: the confidence statistic (C1, C9) -/

/-- A parsed value with a nested numeric confidence entry but no top-level
confidence key. -/
def c1ex : Json :=
  .obj (.cons (s2n "a")
    (.obj (.cons (s2n "name_confidence") (.num (s2n "0.9")) .nil)) .nil)

/-- C1 counterexample: for `{"a": {"name_confidence": 0.9}}` the spec-side
walk reaches the numeric confidence value `0.9`, so the claim demands the
statistic be present (with mean `0.9`); the program computes no statistic
at all, because no TOP-LEVEL key contains `"confidence"` — the code's line
178 gate. -/
theorem c1_counterexample :
    specConfVals c1ex = [⟨9, 10⟩] ∧
    analyzeJson c1ex = .structured c1ex (some 1) none := by
  constructor
  · rfl
  · rfl

/-- C1 amended: the average-confidence statistic is computed only when the
top-level value is a mapping with at least one direct key containing
`"confidence"` case-insensitively; the values averaged are those collected
by `find_confidences`, which takes the whole value of a confidence-named
key without descending into it and recurses elsewhere; when all collected
values are numeric and the mean lies in `[0, 1]`, the exposed statistic is
exactly their arithmetic mean; with no qualifying top-level key the
statistic is absent, whatever confidence values exist deeper in the tree. -/
theorem c1_amended (o : JObj) (qs : List Frac)
    (h2 : collectFins (find_confidences (.obj o)) = some qs)
    (h3 : 0 ≤ (sumFracs qs).num ∧
      (sumFracs qs).num ≤ (((sumFracs qs).den * qs.length : Nat) : Int)) :
    analyzeJson (.obj o) =
      .structured (.obj o) (some o.length)
        (if confGate o then
          some ⟨(sumFracs qs).num, (sumFracs qs).den * qs.length⟩
         else none) ∧
    (confGate o = true →
      Frac.val ⟨(sumFracs qs).num, (sumFracs qs).den * qs.length⟩ =
        meanQ (qs.map Frac.val)) := by
  have hdens := collectFins_dens _ _ h2
  constructor
  · cases hg : confGate o with
    | false =>
      simp only [analyzeJson, hg, Bool.false_eq_true, if_false]
    | true =>
      have hne : find_confidences (.obj o) ≠ [] := by
        show findConfObj o ≠ []
        exact confGate_fc_ne o hg
      have hie : (find_confidences (.obj o)).isEmpty = false := by
        cases hfc : find_confidences (.obj o) with
        | nil => exact absurd hfc hne
        | cons a l => rfl
      simp only [analyzeJson, hg, if_true, hie, Bool.false_eq_true, if_false, h2,
        if_pos h3]
  · intro hg
    have hne : find_confidences (.obj o) ≠ [] := by
      show findConfObj o ≠ []
      exact confGate_fc_ne o hg
    have hlen : qs.length = (find_confidences (.obj o)).length :=
      collectFins_length _ _ h2
    have hqne : qs ≠ [] := by
      intro hq
      rw [hq] at hlen
      exact hne (List.length_eq_zero.mp hlen.symm)
    obtain ⟨hsd, hsv⟩ := sumFracs_spec qs hdens
    have hlq : (0 : ℚ) < qs.length := by
      have := List.length_pos.mpr hqne
      exact_mod_cast this
    have hsdq : ((sumFracs qs).den : ℚ) ≠ 0 := by positivity
    have hnum : ((sumFracs qs).num : ℚ) = (qs.map Frac.val).sum * (sumFracs qs).den := by
      have : (sumFracs qs).val = (qs.map Frac.val).sum := hsv
      rw [Frac.val] at this
      field_simp at this
      linarith [this]
    rw [Frac.val, meanQ, hnum]
    push_cast
    rw [List.length_map]
    field_simp
    ring

/-- C1 amended, witness at the spec's own example
`{"name": "Alice", "name_confidence": 0.9, "age_confidence": 0.7}`
(field count 3, average confidence 0.8). -/
theorem c1_amended_witness :
    analyzeJson (.obj (.cons (s2n "name") (.str (s2n "Alice"))
        (.cons (s2n "name_confidence") (.num (s2n "0.9"))
          (.cons (s2n "age_confidence") (.num (s2n "0.7")) .nil)))) =
      .structured (.obj (.cons (s2n "name") (.str (s2n "Alice"))
        (.cons (s2n "name_confidence") (.num (s2n "0.9"))
          (.cons (s2n "age_confidence") (.num (s2n "0.7")) .nil))))
        (some 3) (some ⟨160, 200⟩) := by
  exact (c1_amended
    (.cons (s2n "name") (.str (s2n "Alice"))
      (.cons (s2n "name_confidence") (.num (s2n "0.9"))
        (.cons (s2n "age_confidence") (.num (s2n "0.7")) .nil)))
    [⟨9, 10⟩, ⟨7, 10⟩] (by decide) (by decide)).1

/-- A parsed value with a non-numeric entry under a nested confidence key
but no top-level confidence key. -/
def c9ex : Json :=
  .obj (.cons (s2n "a")
    (.obj (.cons (s2n "x_confidence") (.str (s2n "high")) .nil)) .nil)

/-- C9 counterexample: in `{"a": {"x_confidence": "high"}}` a string sits
under a confidence-named key, yet the run does NOT end in the failed state
and the value is never collected — the collection is gated on a top-level
confidence key, so the claim's "includes it anyway ... ends in the generic
Failed error state" fails here. -/
theorem c9_counterexample :
    specNonNumUnderConf c9ex = true ∧
    analyzeJson c9ex = .structured c9ex (some 1) none := by
  constructor
  · rfl
  · rfl

/-- C9 amended: when the top-level gate passes and the walk collects some
non-numeric value, `sum(confidences)` raises `TypeError` and the run ends
in the generic failed state instead of producing a structured result. -/
theorem c9_amended (o : JObj) (h1 : confGate o = true)
    (h2 : ((find_confidences (.obj o)).any fun j => (toFin j).isNone) = true) :
    analyzeJson (.obj o) = .failed := by
  have hne : find_confidences (.obj o) ≠ [] := by
    show findConfObj o ≠ []
    exact confGate_fc_ne o h1
  have hie : (find_confidences (.obj o)).isEmpty = false := by
    cases hfc : find_confidences (.obj o) with
    | nil => exact absurd hfc hne
    | cons a l => rfl
  have hnone := collectFins_none_of_any _ h2
  simp only [analyzeJson, h1, if_true, hie, Bool.false_eq_true, if_false, hnone]

/-- C9 amended, witness at `{"name_confidence": "high"}`. -/
theorem c9_amended_witness :
    analyzeJson (.obj (.cons (s2n "name_confidence") (.str (s2n "high")) .nil)) =
      .failed :=
  c9_amended (.cons (s2n "name_confidence") (.str (s2n "high")) .nil)
    (by decide) (by decide)

/-- C10, witness: an empty plain-text file with pasted text present. -/
theorem c10_confirmed_witness :
    runPipeline (s2n "k") (some (.plainText [])) (s2n "pasted") .automatic [] =
      ⟨.silentHalt, true, false⟩ ∧
    (∀ g : FileData,
      runPipeline (s2n "k") (some g) (s2n "pasted") .automatic [] =
        runPipeline (s2n "k") (some g) [] .automatic []) :=
  c10_confirmed (s2n "k") (.plainText []) (s2n "pasted") [] .automatic []
    (by decide) (by rfl)

/-- C8: REFUTED as stated.  Python's `json.loads` accepts the text `NaN`,
`json.dumps` re-serializes the value to `NaN` and re-parsing returns the
same value, but the re-parsed value is NOT deeply equal to the one
produced directly by parsing: Python's `float("nan") == float("nan")` is
false, so the round trip's deep-equality claim fails at `T = "NaN"`. -/
theorem c8_counterexample :
    loads (s2n "NaN") = some Json.nan ∧ dumps Json.nan = s2n "NaN" ∧
      pyEq Json.nan Json.nan = false :=
  ⟨rfl, rfl, rfl⟩

/-- C8 (amended): for every completion text `T` of Unicode code points
that parses to a value `v` containing no `NaN` and no string or key with
an adjacent high surrogate followed by a low surrogate, serializing `v`
as in the download artifact (`json.dumps(v, indent=2)`) and re-parsing
yields exactly `v`, which is deeply equal (Python `==`) to the value
produced directly by parsing `T`. -/
theorem c8_amended (T : List Nat) (v : Json) (hT : ∀ c ∈ T, c < 1114112)
    (h : loads T = some v) (hn : noNaN v = true) (hp : surrFree v = true) :
    loads (dumps v) = some v ∧ pyEq v v = true := by
  have hwf : wfJ v := loads_wf T v h hT
  exact ⟨loads_dumps v hwf hp, pyEq_refl v hn hwf⟩

/-- C8 amended, witness at the completion text `{"a": [0.9, true]}`. -/
theorem c8_amended_witness :
    (∀ c ∈ s2n "\x7b\"a\": [0.9, true]\x7d", c < 1114112) ∧
    loads (s2n "\x7b\"a\": [0.9, true]\x7d") = some (Json.obj
      (JObj.cons (s2n "a") (Json.arr (JList.cons (Json.num (s2n "0.9"))
        (JList.cons (Json.bool true) JList.nil))) JObj.nil)) ∧
    noNaN (Json.obj (JObj.cons (s2n "a") (Json.arr (JList.cons
      (Json.num (s2n "0.9")) (JList.cons (Json.bool true) JList.nil)))
      JObj.nil)) = true ∧
    surrFree (Json.obj (JObj.cons (s2n "a") (Json.arr (JList.cons
      (Json.num (s2n "0.9")) (JList.cons (Json.bool true) JList.nil)))
      JObj.nil)) = true ∧
    (loads (dumps (Json.obj (JObj.cons (s2n "a") (Json.arr (JList.cons
        (Json.num (s2n "0.9")) (JList.cons (Json.bool true) JList.nil)))
        JObj.nil))) = some (Json.obj (JObj.cons (s2n "a") (Json.arr
        (JList.cons (Json.num (s2n "0.9")) (JList.cons (Json.bool true)
        JList.nil))) JObj.nil)) ∧
      pyEq (Json.obj (JObj.cons (s2n "a") (Json.arr (JList.cons
        (Json.num (s2n "0.9")) (JList.cons (Json.bool true) JList.nil)))
        JObj.nil)) (Json.obj (JObj.cons (s2n "a") (Json.arr (JList.cons
        (Json.num (s2n "0.9")) (JList.cons (Json.bool true) JList.nil)))
        JObj.nil)) = true) :=
  ⟨by decide, rfl, rfl, rfl,
    c8_amended (s2n "\x7b\"a\": [0.9, true]\x7d") _ (by decide) rfl rfl rfl⟩

end DocAI
